import Mathlib

/-!
Verification of the page-tree / content-versioning core of the
`pages` Django application (models.py, managers.py, admin/forms.py).

The embedding below translates the relevant Python code into Lean:

* `PageRec` models a row of the `Page` table (the fields the verified
  operations touch); `ContentRec` models a row of the `Content` table.
* A database is a plain list of rows; primary-key lookup, Django's
  `save()` (insert-or-update), `filter(...)`, `latest('creation_date')`
  and `order_by('-creation_date')` are modelled as list operations.
* Machine time (`get_now()`) is modelled as a `Nat` passed explicitly.
* Django settings that gate behaviour (`PAGE_SHOW_START_DATE`,
  `PAGE_SHOW_END_DATE`, `PAGE_CONTENT_REVISION_DEPTH`) are gathered in
  a `PageSettings` record passed explicitly; the revision depth is a
  `Nat` whose value `0` models the falsy "not configured" case.
-/

namespace Pages

/-- Settings consumed by the verified code paths
(`pages/settings.py` values are plain module constants). -/
structure PageSettings where
  PAGE_SHOW_START_DATE : Bool
  PAGE_SHOW_END_DATE : Bool
  PAGE_CONTENT_REVISION_DEPTH : Nat
deriving Repr, DecidableEq

/-- One row of the `Page` table: the fields read or written by
`Page.save`, `Page._get_calculated_status`, `Page._visible`,
`Page.valid_targets` and the content accessors (models.py).
`status` uses the integer coding of `Page.STATUSES`. -/
structure PageRec where
  id : Nat
  parentId : Option Nat
  slug : String
  complete_slug : String
  status : Nat
  publication_date : Option Nat
  publication_end_date : Option Nat
  freeze_date : Option Nat
  last_modification_date : Nat
deriving Repr, DecidableEq

/-- `Page.DRAFT` -/
def DRAFT : Nat := 0
/-- `Page.PUBLISHED` -/
def PUBLISHED : Nat := 1
/-- `Page.EXPIRED` -/
def EXPIRED : Nat := 2
/-- `Page.HIDDEN` -/
def HIDDEN : Nat := 3

/-- `Page._get_calculated_status` (models.py lines 208-222): start-date
enforcement first (future publication date forces DRAFT), then end-date
enforcement (past end date forces EXPIRED), otherwise the stored status.
A Python `datetime` is always truthy, so `self.publication_date` tests
`isSome`. -/
def calculated_status (st : PageSettings) (now : Nat) (p : PageRec) : Nat :=
  if st.PAGE_SHOW_START_DATE then
    match p.publication_date with
    | some d =>
        if d > now then DRAFT
        else calculatedStatusEndPart st now p
    | none => calculatedStatusEndPart st now p
  else calculatedStatusEndPart st now p
where
  /-- the `PAGE_SHOW_END_DATE` half of `_get_calculated_status` -/
  calculatedStatusEndPart (st : PageSettings) (now : Nat) (p : PageRec) : Nat :=
    if st.PAGE_SHOW_END_DATE then
      match p.publication_end_date with
      | some e => if e < now then EXPIRED else p.status
      | none => p.status
    else p.status

/-- `Page._visible` (models.py lines 224-227). -/
def visible (st : PageSettings) (now : Nat) (p : PageRec) : Bool :=
  calculated_status st now p == PUBLISHED || calculated_status st now p == HIDDEN

/-- The status/publication-date fix-ups performed at the top of
`Page.save` (models.py lines 161-174), before the slug computation:

* `if not self.status: self.status = self.DRAFT` (a no-op on the
  integer coding, kept for faithfulness),
* a `PUBLISHED` page with no `publication_date` gets `now`,
* a `DRAFT` page has its `publication_date` cleared, except that under
  `PAGE_SHOW_START_DATE` a strictly future date is kept,
* `last_modification_date` is set to `now`. -/
def savePubFixups (st : PageSettings) (now : Nat) (p : PageRec) : PageRec :=
  let p := if p.status == 0 then { p with status := DRAFT } else p
  let p :=
    if p.publication_date == none && p.status == PUBLISHED then
      { p with publication_date := some now }
    else p
  let p :=
    if p.status == DRAFT then
      if st.PAGE_SHOW_START_DATE then
        match p.publication_date with
        | some d => if d ≤ now then { p with publication_date := none } else p
        | none => p
      else { p with publication_date := none }
    else p
  { p with last_modification_date := now }

/-! ### The Content store (managers.py, `ContentManager`) -/

/-- One row of the `Content` table (models.py lines 508-530). -/
structure ContentRec where
  id : Nat
  pageId : Nat
  language : String
  type : String
  body : String
  creation_date : Nat
deriving Repr, DecidableEq

/-- The `(page, language, type)` key test used by all
`self.filter(page=page, language=language, type=ctype)` calls. -/
def keyPred (pid : Nat) (language ctype : String) (c : ContentRec) : Bool :=
  c.pageId == pid && c.language == language && c.type == ctype

/-- `self.filter(page=page, language=language, type=ctype)` as a list. -/
def contentFor (db : List ContentRec) (pid : Nat) (language ctype : String) :
    List ContentRec :=
  db.filter (keyPred pid language ctype)

/-- `queryset.latest('creation_date')` (and `.latest()` under
`get_latest_by = 'creation_date'`): the row with the greatest
`creation_date`, `none` when the queryset is empty (`DoesNotExist`).
The SQL leaves the choice among rows with equal timestamps open; the
model takes the row stored later in the table. -/
def latestBy (l : List ContentRec) : Option ContentRec :=
  l.foldl
    (fun acc c =>
      match acc with
      | none => some c
      | some b => if b.creation_date ≤ c.creation_date then some c else some b)
    none

/-- `content.save()` on a row that already has a primary key: the row
with that key is replaced in place. -/
def updateById (db : List ContentRec) (i : Nat) (c : ContentRec) :
    List ContentRec :=
  db.map (fun q => if q.id == i then c else q)

/-- `ContentManager.set_or_create_content` (managers.py lines 119-136):
overwrite the body of the latest existing version for the key, or
create a fresh version when none exists.  A freshly created row gets
primary key `newId` and `creation_date = now` (the `get_now` default). -/
def set_or_create_content (db : List ContentRec) (newId now : Nat)
    (pid : Nat) (language ctype body : String) :
    List ContentRec × ContentRec :=
  match latestBy (contentFor db pid language ctype) with
  | some content =>
      let content := { content with body := body }
      (updateById db content.id content, content)
  | none =>
      let content : ContentRec :=
        { id := newId, pageId := pid, language := language, type := ctype,
          body := body, creation_date := now }
      (db ++ [content], content)

/-- The descending order used by `order_by('-creation_date')`. -/
def descDate (a b : ContentRec) : Bool :=
  b.creation_date ≤ a.creation_date

/-- The row built by `self.create(page=page, language=language,
body=body, type=ctype)`: fresh primary key, `creation_date` defaulting
to `get_now()`. -/
def newContent (newId now pid : Nat) (language ctype body : String) :
    ContentRec :=
  { id := newId, pageId := pid, language := language, type := ctype,
    body := body, creation_date := now }

/-- The shared creation branch of `create_content_if_changed`
(managers.py lines 155-165): `self.create(...)` followed by deletion of
`order_by('-creation_date')[PAGE_CONTENT_REVISION_DEPTH:]` when the
revision depth is configured (non-zero). -/
def createAndPrune (st : PageSettings) (db : List ContentRec)
    (newId now : Nat) (pid : Nat) (language ctype body : String) :
    List ContentRec × ContentRec :=
  let content := newContent newId now pid language ctype body
  let db1 := db ++ [content]
  if st.PAGE_CONTENT_REVISION_DEPTH ≠ 0 then
    let sorted := (contentFor db1 pid language ctype).mergeSort descDate
    let oldest := sorted.drop st.PAGE_CONTENT_REVISION_DEPTH
    (db1.filter (fun c => !(oldest.any (fun v => v.id == c.id))), content)
  else (db1, content)

/-- `ContentManager.create_content_if_changed` (managers.py lines
138-165): return the latest version unchanged when its body equals the
argument, otherwise create a new version and prune old revisions. -/
def create_content_if_changed (st : PageSettings) (db : List ContentRec)
    (newId now : Nat) (pid : Nat) (language ctype body : String) :
    List ContentRec × ContentRec :=
  match latestBy (contentFor db pid language ctype) with
  | some content =>
      if content.body == body then (db, content)
      else createAndPrune st db newId now pid language ctype body
  | none => createAndPrune st db newId now pid language ctype body

/-- `ContentManager.get_content_object` (managers.py lines 167-177):
the key filter, restricted to `creation_date <= page.freeze_date` when
the page has a freeze date, then `.latest()`; `none` models the
`Content.DoesNotExist` raise. -/
def get_content_object (db : List ContentRec) (page : PageRec)
    (language ctype : String) : Option ContentRec :=
  let rows := contentFor db page.id language ctype
  let rows :=
    match page.freeze_date with
    | some fd => rows.filter (fun c => c.creation_date ≤ fd)
    | none => rows
  latestBy rows

/-- The result of the dynamically typed `ContentManager.get_content`:
normally a string; for ctype `"title"` the code returns `page.title`,
which on this Page model is the page record's own (bound) `title`
method — an attribute of the page object itself, not a string. -/
inductive GetContentResult where
  | text (s : String)
  | titleAttribute (page : PageRec)
deriving Repr, DecidableEq

/-- `ContentManager.get_content` (managers.py lines 179-233).  The
process-wide cache and the per-instance `_content_dict` are modelled as
transparent: the cached language-to-body dict always equals its
recomputation.  A ctype containing a space raises `ValueError`
(`Except.error`); `"title"` returns `page.title` (the page record's own
attribute) and `"slug"` returns the page's own slug field, both before
any Content-table access.  `langs` is the configured `PAGE_LANGUAGES`
codes in priority order; a missing or empty language argument falls
back to `defaultLanguage` (`PAGE_DEFAULT_LANGUAGE`). -/
def manager_get_content (langs : List String)
    (defaultLanguage : String) (db : List ContentRec) (page : PageRec)
    (language : Option String) (ctype : String)
    (language_fallback : Bool) : Except String GetContentResult :=
  if ctype.data.contains ' ' then .error "Ctype cannot contain spaces."
  else
    let lang :=
      match language with
      | none => defaultLanguage
      | some l => if l.isEmpty then defaultLanguage else l
    if ctype == "title" then .ok (.titleAttribute page)
    else if ctype == "slug" then .ok (.text page.slug)
    else
      let content_dict := langs.map (fun l =>
        (l, match get_content_object db page l ctype with
            | some c => c.body
            | none => ""))
      let entry := (content_dict.find? (fun p => p.1 == lang)).map
        Prod.snd
      match entry with
      | some body =>
          if body ≠ "" then .ok (.text body)
          else if language_fallback then
            match content_dict.find? (fun p => p.2 ≠ "") with
            | some p => .ok (.text p.2)
            | none => .ok (.text "")
          else .ok (.text "")
      | none =>
          if language_fallback then
            match content_dict.find? (fun p => p.2 ≠ "") with
            | some p => .ok (.text p.2)
            | none => .ok (.text "")
          else .ok (.text "")

/-- `Page.get_content` (models.py lines 385-398): short-circuits
`"slug"` to the page's own slug field and delegates the rest to
`ContentManager.get_content`. -/
def page_get_content (langs : List String) (defaultLanguage : String)
    (db : List ContentRec) (page : PageRec) (language : Option String)
    (ctype : String) (language_fallback : Bool) :
    Except String GetContentResult :=
  if ctype == "slug" then .ok (.text page.slug)
  else manager_get_content langs defaultLanguage db page language ctype
    language_fallback

/-! ### The slug machinery of `Page.save` (models.py lines 179-185) -/

/-- `Page.build_complete_slug` (models.py lines 143-153). -/
def build_complete_slug (parent : Option PageRec) (slug : String) :
    String :=
  match parent with
  | none => slug
  | some q => q.complete_slug ++ "/" ++ slug

/-- Modelled from the spec: `Page.objects.from_complete_slug`, called
by `Page.save` but not defined in the provided sources.  Per the spec
the materialized path is looked up by equality ("complete_slug is
unique within the applicable site scope"); site scoping is not
modelled. -/
def from_complete_slug (db : List PageRec) (cs : String) :
    List PageRec :=
  db.filter (fun q => q.complete_slug == cs)

/-- The collision test of the save loop:
`Page.objects.from_complete_slug(...).exclude(id=self.id).exists()`. -/
def slugTaken (db : List PageRec) (selfId : Nat) (cs : String) : Bool :=
  (from_complete_slug db cs).any (fun q => q.id != selfId)

/-- A suffixed slug candidate `base + "-" + str(k)`. -/
def candSlug (base : String) (k : Nat) : String :=
  base ++ "-" ++ Nat.repr k

/-- The `while` loop of `Page.save`: starting from the base complete
slug with `next = 1`, try `base`, `base-1`, `base-2`, ... until the
candidate is not taken.  The fuel `db.length + 1` provably suffices
(`savedCompleteSlug_not_taken`). -/
def resolveLoop (db : List PageRec) (selfId : Nat) (base : String) :
    Nat → String → Nat → String
  | 0, cur, _ => cur
  | fuel + 1, cur, next =>
      if slugTaken db selfId cur then
        resolveLoop db selfId base fuel (candSlug base next) (next + 1)
      else cur

/-- The complete slug assigned by `Page.save` after the collision
loop. -/
def savedCompleteSlug (db : List PageRec) (selfId : Nat)
    (base : String) : String :=
  resolveLoop db selfId base (db.length + 1) base 1

/-! ### The page tree: lookups, descendants, the save cascade -/

/-- Primary-key lookup in the `Page` table. -/
def getPage (db : List PageRec) (i : Nat) : Option PageRec :=
  db.find? (fun p => p.id == i)

/-- `super(Page, page).save()` inside the descendant cascade: only the
recomputed `complete_slug` of that row changes. -/
def setCS (db : List PageRec) (i : Nat) (cs : String) : List PageRec :=
  db.map (fun p =>
    if p.id == i then { p with complete_slug := cs } else p)

/-- The children of page `i` per the parent foreign key. -/
def childrenOf (db : List PageRec) (i : Nat) : List PageRec :=
  db.filter (fun c => c.parentId == some i)

/-- The write of the saved page row itself: update the row with the
same primary key when it exists, insert otherwise. -/
def upsert (db : List PageRec) (p : PageRec) : List PageRec :=
  if db.any (fun q => q.id == p.id) then
    db.map (fun q => if q.id == p.id then p else q)
  else db ++ [p]

/-- The parent pointer of the page with id `i`. -/
def parentIdOf (db : List PageRec) (i : Nat) : Option Nat :=
  (getPage db i).bind (fun p => p.parentId)

/-- The id of the `k`-th ancestor of `i` along parent pointers. -/
def ancestorAt (db : List PageRec) : Nat → Nat → Option Nat
  | 0, i => some i
  | k + 1, i =>
      match parentIdOf db i with
      | none => none
      | some j => ancestorAt db k j

/-- The descendant cascade of `Page.save` (models.py lines 196-204):
`self.get_descendants().order_by('lft')` enumerates the subtree in
preorder — parents before children — and each page's `complete_slug`
is recomputed via `page.build_complete_slug(page.parent, page.slug)`
against the already-updated database, then written back with a plain
`super().save()`; the recursion below performs exactly that preorder
traversal.  (`page.override_url` is always `None` on pages freshly
loaded from the database — `__init__` sets it — so that branch of the
loop is dead.)  The fuel bounds the recursion depth; any value at
least the tree height covers the whole subtree. -/
def cascadeSub : Nat → List PageRec → Nat → List PageRec
  | 0, db, _ => db
  | fuel + 1, db, i =>
      (childrenOf db i).foldl
        (fun acc c => cascadeSub fuel
          (setCS acc c.id
            (build_complete_slug (c.parentId.bind (getPage acc))
              c.slug))
          c.id)
        db

/-- The per-child step of the cascade over a fixed list of children. -/
def cascadeKids (fuel : Nat) (db : List PageRec)
    (ks : List PageRec) : List PageRec :=
  ks.foldl
    (fun acc c => cascadeSub fuel
      (setCS acc c.id
        (build_complete_slug (c.parentId.bind (getPage acc)) c.slug))
      c.id)
    db

theorem cascadeSub_zero (db : List PageRec) (i : Nat) :
    cascadeSub 0 db i = db := rfl

theorem cascadeSub_succ (fuel : Nat) (db : List PageRec) (i : Nat) :
    cascadeSub (fuel + 1) db i =
      cascadeKids fuel db (childrenOf db i) := rfl

theorem cascadeKids_nil (fuel : Nat) (db : List PageRec) :
    cascadeKids fuel db [] = db := rfl

theorem cascadeKids_cons (fuel : Nat) (db : List PageRec)
    (c : PageRec) (rest : List PageRec) :
    cascadeKids fuel db (c :: rest) =
      cascadeKids fuel
        (cascadeSub fuel
          (setCS db c.id
            (build_complete_slug (c.parentId.bind (getPage db))
              c.slug))
          c.id) rest := rfl

/-- The row written for the saved page itself by `Page.save`: the
pub-date fix-ups applied, then the collision-resolved complete slug. -/
def savedPage (st : PageSettings) (now : Nat) (db : List PageRec)
    (page : PageRec) : PageRec :=
  let p := savePubFixups st now page
  let cs := savedCompleteSlug db p.id
    (build_complete_slug (p.parentId.bind (getPage db)) p.slug)
  { p with complete_slug := cs }

/-- `Page.save` (models.py lines 155-204): fix-ups, the collision loop
on the rebuilt complete slug, the row write, and — only when the
complete slug changed against `self._original_complete_slug` (the value
loaded from the database) — the top-down descendant cascade. -/
def pageSave (st : PageSettings) (now : Nat) (db : List PageRec)
    (page : PageRec) : List PageRec :=
  let p2 := savedPage st now db page
  let db1 := upsert db p2
  if p2.complete_slug == page.complete_slug then db1
  else cascadeSub db1.length db1 p2.id

/-- The strict descendants of page `i`, by bounded parent-chain search;
models mptt's `get_descendants()` (the chain bound `db.length` covers
every chain of a well-formed forest). -/
def descendantRecs (db : List PageRec) (i : Nat) : List PageRec :=
  db.filter (fun q =>
    (List.range db.length).any
      (fun k => ancestorAt db (k + 1) q.id == some i))

/-- `Page.valid_targets` (models.py lines 372-381): every page except
the page itself and its descendants. -/
def valid_targets (db : List PageRec) (p : PageRec) : List PageRec :=
  let exclude_list := p.id ::
    (descendantRecs db p.id).map (fun q => q.id)
  db.filter (fun q => !(exclude_list.contains q.id))

/-- `Page.move_to` (models.py lines 256-264) delegates to mptt's
`move_to` and then saves.  Modelled from the spec: "Moving a page into
its own subtree is an error (cycle prevention)" — the external mptt
library raises `InvalidMove` when the target is the page itself or one
of its descendants; only that rejection and the default `first-child`
re-parenting are modelled here. -/
def move_to (st : PageSettings) (now : Nat) (db : List PageRec)
    (p : PageRec) (targetId : Nat) : Except String (List PageRec) :=
  if targetId == p.id ||
      (List.range db.length).any
        (fun k => ancestorAt db (k + 1) targetId == some p.id) then
    .error "InvalidMove"
  else
    .ok (pageSave st now db { p with parentId := some targetId })

/-- A page record with the `complete_slug` blanked: the projection
preserved by every cascade write. -/
def stripCS (p : PageRec) : PageRec := { p with complete_slug := "" }

/-- The materialized-path equation at page id `j`: its row's
`complete_slug` is its parent row's `complete_slug` plus "/" plus its
own slug. -/
def EquationAt (db : List PageRec) (j : Nat) : Prop :=
  ∀ q, getPage db j = some q →
    ∃ pi r, q.parentId = some pi ∧ getPage db pi = some r ∧
      q.complete_slug = r.complete_slug ++ "/" ++ q.slug

/-- `j` is a strict descendant of `a` within `fuel` parent steps. -/
def DescLe (db : List PageRec) (fuel a j : Nat) : Prop :=
  ∃ k, 1 ≤ k ∧ k ≤ fuel ∧ ancestorAt db k j = some a

/-- `j` is a strict descendant of `a`. -/
def DescAny (db : List PageRec) (a j : Nat) : Prop :=
  ∃ k, 1 ≤ k ∧ ancestorAt db k j = some a

/-- Well-formedness of the page forest, witnessed by a depth ranking:
ids are unique, parent pointers resolve and increase the depth by one,
and depths are bounded by the table size.  Every finite forest admits
such a ranking (its true depth). -/
structure Forest (db : List PageRec) (dep : Nat → Nat) : Prop where
  nodupIds : (db.map (fun p => p.id)).Nodup
  parentStep : ∀ p ∈ db,
    (match p.parentId with
     | none => True
     | some j => (∃ q ∈ db, q.id = j) ∧ dep p.id = dep j + 1)
  depBound : ∀ p ∈ db, dep p.id ≤ db.length

/-! ### Claim-side (specification) functions

These are written from the words of the specification, independently of
the code translation above, and compared with it. -/

/-- Spec wording of the effective-status derivation (`effectiveStatus`):
Draft when start-date enforcement is enabled, the publication date is
set and in the future; otherwise Expired when end-date enforcement is
enabled, the end date is set and past; otherwise the stored status. -/
def effectiveStatusSpec (st : PageSettings) (now : Nat) (p : PageRec) : Nat :=
  if st.PAGE_SHOW_START_DATE ∧ ∃ d, p.publication_date = some d ∧ d > now then
    DRAFT
  else if st.PAGE_SHOW_END_DATE ∧ ∃ e, p.publication_end_date = some e ∧ e < now then
    EXPIRED
  else
    p.status

/-- Spec wording of the save-time publication-date side effects:
Published with unset date gets `now`; a Draft keeps a strictly future
date only under start-date enforcement and is cleared otherwise; all
other pages keep their date. -/
def pubDateAfterSaveSpec (st : PageSettings) (now : Nat) (p : PageRec) : Option Nat :=
  if p.status = PUBLISHED ∧ p.publication_date = none then
    some now
  else if p.status = DRAFT then
    match p.publication_date with
    | some d => if st.PAGE_SHOW_START_DATE ∧ d > now then some d else none
    | none => none
  else
    p.publication_date

/-- Spec wording of the freeze-time read: the versions for the key
"created at or before that timestamp" — the candidate set from which
`getContentObject` must pick the latest. -/
def qualifying (db : List ContentRec) (page : PageRec)
    (language ctype : String) (fd : Nat) : List ContentRec :=
  (contentFor db page.id language ctype).filter
    (fun c => c.creation_date ≤ fd)

end Pages

namespace Pages

/-! ### Helper lemmas about `latestBy` -/

theorem latestBy_go_isSome (l : List ContentRec) (b : ContentRec) :
    (l.foldl
      (fun acc c =>
        match acc with
        | none => some c
        | some b => if b.creation_date ≤ c.creation_date then some c else some b)
      (some b)).isSome = true := by
  induction l generalizing b with
  | nil => rfl
  | cons c rest ih =>
      simp only [List.foldl_cons]
      split <;> exact ih _

theorem latestBy_eq_none_iff (l : List ContentRec) :
    latestBy l = none ↔ l = [] := by
  cases l with
  | nil => simp [latestBy]
  | cons c rest =>
      simp only [latestBy, List.foldl_cons]
      constructor
      · intro h
        have := latestBy_go_isSome rest c
        rw [h] at this
        cases this
      · intro h
        cases h

theorem latestBy_go_mem (l : List ContentRec) (b c : ContentRec)
    (h : l.foldl
      (fun acc c =>
        match acc with
        | none => some c
        | some b => if b.creation_date ≤ c.creation_date then some c else some b)
      (some b) = some c) : c = b ∨ c ∈ l := by
  induction l generalizing b with
  | nil => simp at h; exact Or.inl h.symm
  | cons x rest ih =>
      simp only [List.foldl_cons] at h
      split at h
      · rcases ih _ h with h1 | h1
        · exact Or.inr (by simp [h1])
        · exact Or.inr (by simp [h1])
      · rcases ih _ h with h1 | h1
        · exact Or.inl h1
        · exact Or.inr (by simp [h1])

theorem latestBy_mem (l : List ContentRec) (c : ContentRec)
    (h : latestBy l = some c) : c ∈ l := by
  cases l with
  | nil => cases h
  | cons x rest =>
      simp only [latestBy, List.foldl_cons] at h
      rcases latestBy_go_mem rest x c h with h1 | h1
      · simp [h1]
      · simp [h1]

theorem latestBy_go_max (l : List ContentRec) (b c : ContentRec)
    (h : l.foldl
      (fun acc c =>
        match acc with
        | none => some c
        | some b => if b.creation_date ≤ c.creation_date then some c else some b)
      (some b) = some c) :
    b.creation_date ≤ c.creation_date ∧
      ∀ x ∈ l, x.creation_date ≤ c.creation_date := by
  induction l generalizing b with
  | nil =>
      simp at h
      subst h
      exact ⟨Nat.le_refl _, by simp⟩
  | cons x rest ih =>
      simp only [List.foldl_cons] at h
      split at h
      case isTrue hle =>
        obtain ⟨h1, h2⟩ := ih _ h
        refine ⟨Nat.le_trans hle h1, ?_⟩
        intro y hy
        rcases List.mem_cons.mp hy with rfl | hy
        · exact h1
        · exact h2 _ hy
      case isFalse hlt =>
        obtain ⟨h1, h2⟩ := ih _ h
        refine ⟨h1, ?_⟩
        intro y hy
        rcases List.mem_cons.mp hy with rfl | hy
        · exact Nat.le_trans (Nat.le_of_lt (Nat.lt_of_not_le hlt)) h1
        · exact h2 _ hy

theorem latestBy_max (l : List ContentRec) (c : ContentRec)
    (h : latestBy l = some c) :
    ∀ x ∈ l, x.creation_date ≤ c.creation_date := by
  cases l with
  | nil => cases h
  | cons x rest =>
      simp only [latestBy, List.foldl_cons] at h
      obtain ⟨h1, h2⟩ := latestBy_go_max rest x c h
      intro y hy
      rcases List.mem_cons.mp hy with rfl | hy
      · exact h1
      · exact h2 _ hy

/-- When one member strictly dominates every other member's timestamp,
`latestBy` returns it. -/
theorem latestBy_of_strict_max (l : List ContentRec) (x : ContentRec)
    (hx : x ∈ l)
    (hdom : ∀ y ∈ l, y ≠ x → y.creation_date < x.creation_date) :
    latestBy l = some x := by
  rcases hres : latestBy l with _ | c
  · rw [latestBy_eq_none_iff] at hres
    subst hres
    cases hx
  · have hc := latestBy_mem l c hres
    have hmax := latestBy_max l c hres
    by_cases hcx : c = x
    · rw [hcx]
    · have h1 := hdom c hc hcx
      have h2 := hmax x hx
      omega

/-- The fold underlying `latestBy` commutes with any row map that
preserves `creation_date` on the rows involved. -/
theorem latestBy_go_map (f : ContentRec → ContentRec) :
    ∀ (l : List ContentRec) (b : ContentRec),
    (∀ x ∈ l, (f x).creation_date = x.creation_date) →
    (f b).creation_date = b.creation_date →
    (l.map f).foldl
      (fun acc c =>
        match acc with
        | none => some c
        | some b => if b.creation_date ≤ c.creation_date then some c else some b)
      (some (f b)) =
    Option.map f (l.foldl
      (fun acc c =>
        match acc with
        | none => some c
        | some b => if b.creation_date ≤ c.creation_date then some c else some b)
      (some b)) := by
  intro l
  induction l with
  | nil => intro b _ _; rfl
  | cons x rest ih =>
      intro b hf hfb
      have hfx : (f x).creation_date = x.creation_date := hf x (by simp)
      have hrest : ∀ y ∈ rest, (f y).creation_date = y.creation_date :=
        fun y hy => hf y (by simp [hy])
      simp only [List.map_cons, List.foldl_cons, hfx, hfb]
      by_cases hle : b.creation_date ≤ x.creation_date
      · simp only [if_pos hle]
        exact ih x hrest hfx
      · simp only [if_neg hle]
        exact ih b hrest hfb

/-- `latestBy` commutes with any row map that preserves
`creation_date` on the members: `.latest()` depends only on the
timestamps. -/
theorem latestBy_map_date (f : ContentRec → ContentRec)
    (l : List ContentRec)
    (hf : ∀ x ∈ l, (f x).creation_date = x.creation_date) :
    latestBy (l.map f) = Option.map f (latestBy l) := by
  cases l with
  | nil => rfl
  | cons x rest =>
      have hfx : (f x).creation_date = x.creation_date := hf x (by simp)
      have hrest : ∀ y ∈ rest, (f y).creation_date = y.creation_date :=
        fun y hy => hf y (by simp [hy])
      simp only [latestBy, List.map_cons, List.foldl_cons]
      exact latestBy_go_map f rest x hrest hfx

end Pages

namespace Pages

/-- A map that preserves a predicate on the members of a list preserves
the length of the filtered list. -/
theorem length_filter_map_congr {α : Type} (f : α → α) (p : α → Bool)
    (l : List α) (h : ∀ q ∈ l, p (f q) = p q) :
    ((l.map f).filter p).length = (l.filter p).length := by
  induction l with
  | nil => rfl
  | cons x rest ih =>
      simp only [List.map_cons, List.filter_cons]
      rw [h x (by simp)]
      have ih2 := ih (fun q hq => h q (by simp [hq]))
      split <;> simp [ih2]

/-- C7: `set_or_create_content` overwrites the body of the latest
existing version for the key when one exists and creates a new version
otherwise.  When `latestBy` yields a latest version `c`, the returned
record is exactly `c` with the new body, the table is exactly the
in-place update of row `c.id` (every other row is kept), and the
latest version for the key afterwards is that overwritten row — so the
key's latest body now equals the argument; when no version exists, a
fresh row with the given body is appended and returned.  In either
case the returned record carries the given body, and no second version
is added when one already existed (the table size and the number of
versions for the key are unchanged). -/
theorem set_or_create_content_spec (db : List ContentRec)
    (newId now pid : Nat) (language ctype body : String)
    (hids : (db.map (fun c => c.id)).Nodup) :
    ((set_or_create_content db newId now pid language ctype body).2.body
        = body ∧
      (set_or_create_content db newId now pid language ctype
          body).1.length =
        (if (contentFor db pid language ctype).isEmpty then db.length + 1
         else db.length) ∧
      (contentFor (set_or_create_content db newId now pid language ctype
          body).1 pid language ctype).length =
        (if (contentFor db pid language ctype).isEmpty then 1
         else (contentFor db pid language ctype).length)) ∧
    (∀ c, latestBy (contentFor db pid language ctype) = some c →
      (set_or_create_content db newId now pid language ctype body).2 =
        { c with body := body } ∧
      (set_or_create_content db newId now pid language ctype body).1 =
        updateById db c.id { c with body := body } ∧
      latestBy (contentFor (set_or_create_content db newId now pid
          language ctype body).1 pid language ctype) =
        some { c with body := body } ∧
      ∀ q ∈ db, q.id ≠ c.id →
        q ∈ (set_or_create_content db newId now pid language ctype
          body).1) ∧
    (latestBy (contentFor db pid language ctype) = none →
      (set_or_create_content db newId now pid language ctype body).1 =
        db ++ [newContent newId now pid language ctype body] ∧
      (set_or_create_content db newId now pid language ctype body).2 =
        newContent newId now pid language ctype body) := by
  have hover : ∀ c, latestBy (contentFor db pid language ctype) = some c →
      (set_or_create_content db newId now pid language ctype body).2 =
        { c with body := body } ∧
      (set_or_create_content db newId now pid language ctype body).1 =
        updateById db c.id { c with body := body } ∧
      latestBy (contentFor (set_or_create_content db newId now pid
          language ctype body).1 pid language ctype) =
        some { c with body := body } ∧
      ∀ q ∈ db, q.id ≠ c.id →
        q ∈ (set_or_create_content db newId now pid language ctype
          body).1 := by
    intro c hl
    have hmem := latestBy_mem _ _ hl
    have hcmem : c ∈ db := List.mem_of_mem_filter hmem
    have hres2 : (set_or_create_content db newId now pid language ctype
        body).2 = { c with body := body } := by
      unfold set_or_create_content
      rw [hl]
    have hres1 : (set_or_create_content db newId now pid language ctype
        body).1 = updateById db c.id { c with body := body } := by
      unfold set_or_create_content
      rw [hl]
    refine ⟨hres2, hres1, ?_, ?_⟩
    · have hcf : contentFor (updateById db c.id { c with body := body })
          pid language ctype =
          (contentFor db pid language ctype).map
            (fun q => if q.id == c.id then { c with body := body }
              else q) := by
        unfold contentFor updateById
        rw [List.filter_map]
        congr 1
        apply List.filter_congr
        intro q hq
        show keyPred pid language ctype
            (if q.id == c.id then { c with body := body } else q) =
          keyPred pid language ctype q
        by_cases hqid : q.id == c.id
        · have hqc : q = c :=
            List.inj_on_of_nodup_map hids hq hcmem (by simpa using hqid)
          subst hqc
          simp [keyPred]
        · simp [hqid]
      have hdates : ∀ x ∈ contentFor db pid language ctype,
          ((fun q => if q.id == c.id then { c with body := body }
            else q) x).creation_date = x.creation_date := by
        intro x hx
        by_cases hxid : x.id == c.id
        · have hxc : x = c := List.inj_on_of_nodup_map hids
            (List.mem_of_mem_filter hx) hcmem (by simpa using hxid)
          subst hxc
          simp
        · simp [hxid]
      rw [hres1, hcf, latestBy_map_date _ _ hdates, hl]
      simp
    · intro q hq hqne
      rw [hres1]
      unfold updateById
      refine List.mem_map.mpr ⟨q, hq, ?_⟩
      have hfalse : (q.id == c.id) = false := by simpa using hqne
      simp [hfalse]
  have hnew : latestBy (contentFor db pid language ctype) = none →
      (set_or_create_content db newId now pid language ctype body).1 =
        db ++ [newContent newId now pid language ctype body] ∧
      (set_or_create_content db newId now pid language ctype body).2 =
        newContent newId now pid language ctype body := by
    intro hl
    unfold set_or_create_content
    rw [hl]
    exact ⟨rfl, rfl⟩
  refine ⟨?_, hover, hnew⟩
  rcases hl : latestBy (contentFor db pid language ctype) with _ | c
  · have hemp : contentFor db pid language ctype = [] :=
      (latestBy_eq_none_iff _).mp hl
    unfold set_or_create_content
    rw [hl]
    refine ⟨rfl, ?_, ?_⟩
    · simp [hemp]
    · simp only [contentFor] at hemp ⊢
      simp [List.filter_append, hemp, keyPred]
  · have hmem := latestBy_mem _ _ hl
    have hcmem : c ∈ db := List.mem_of_mem_filter hmem
    have hemp : (contentFor db pid language ctype).isEmpty = false := by
      rcases hk : contentFor db pid language ctype with _ | ⟨a, rest⟩
      · rw [hk] at hl; cases hl
      · rfl
    unfold set_or_create_content
    rw [hl]
    refine ⟨rfl, ?_, ?_⟩
    · simp [hemp, updateById]
    · rw [hemp]
      simp only [Bool.false_eq_true, if_false]
      unfold updateById contentFor
      apply length_filter_map_congr
      intro q hq
      by_cases hqid : q.id == c.id
      · have hqc : q = c :=
          List.inj_on_of_nodup_map hids hq hcmem (by simpa using hqid)
        subst hqc
        simp [keyPred]
      · simp [hqid]

/-- C4: with `freeze_date` set, `get_content_object` considers only the
versions for the key created at or before the freeze date, returns a
latest one of those, and raises `DoesNotExist` (modelled as `none`)
exactly when none qualify. -/
theorem get_content_object_freeze_spec (db : List ContentRec)
    (page : PageRec) (language ctype : String) (fd : Nat)
    (hfz : page.freeze_date = some fd) :
    (get_content_object db page language ctype = none ↔
      qualifying db page language ctype fd = []) ∧
    (∀ c, get_content_object db page language ctype = some c →
      c ∈ qualifying db page language ctype fd ∧
      c.creation_date ≤ fd ∧
      ∀ x ∈ qualifying db page language ctype fd,
        x.creation_date ≤ c.creation_date) := by
  have hrw : get_content_object db page language ctype =
      latestBy (qualifying db page language ctype fd) := by
    unfold get_content_object qualifying
    rw [hfz]
  rw [hrw]
  refine ⟨latestBy_eq_none_iff _, ?_⟩
  intro c hc
  have hmem := latestBy_mem _ _ hc
  refine ⟨hmem, ?_, latestBy_max _ _ hc⟩
  have := List.of_mem_filter hmem
  simpa using this

/-- Concrete instance for C4: three versions at times 1 < 2 < 3 and
`freeze_date = 2`; `get_content_object` returns the version created at
time 2 (body "v2"), never the later one. -/
def c4page : PageRec :=
  { id := 7, parentId := none, slug := "p", complete_slug := "p",
    status := 1, publication_date := none, publication_end_date := none,
    freeze_date := some 2, last_modification_date := 0 }

/-- The three-version content table for the C4 instance. -/
def c4db : List ContentRec :=
  [ { id := 1, pageId := 7, language := "en-us", type := "body",
      body := "v1", creation_date := 1 },
    { id := 2, pageId := 7, language := "en-us", type := "body",
      body := "v2", creation_date := 2 },
    { id := 3, pageId := 7, language := "en-us", type := "body",
      body := "v3", creation_date := 3 } ]

/-- Witness for C4 at the three-version instance: the freeze hypothesis
holds, the theorem's conclusion is obtained from it, and the returned
row is concretely the one created at time 2. -/
theorem get_content_object_freeze_witness :
    c4page.freeze_date = some 2 ∧
    ((get_content_object c4db c4page "en-us" "body" = none ↔
        qualifying c4db c4page "en-us" "body" 2 = []) ∧
      (∀ c, get_content_object c4db c4page "en-us" "body" = some c →
        c ∈ qualifying c4db c4page "en-us" "body" 2 ∧
        c.creation_date ≤ 2 ∧
        ∀ x ∈ qualifying c4db c4page "en-us" "body" 2,
          x.creation_date ≤ c.creation_date)) ∧
    (get_content_object c4db c4page "en-us" "body").map
        (fun c => c.body) = some "v2" :=
  ⟨rfl, get_content_object_freeze_spec c4db c4page "en-us" "body" 2 rfl,
    by decide⟩

/-- The existing latest version of the C7 instance. -/
def c7old : ContentRec :=
  { id := 1, pageId := 4, language := "en-us", type := "body",
    body := "old", creation_date := 5 }

/-- A stale earlier version for the same key, which the overwrite must
leave untouched. -/
def c7stale : ContentRec :=
  { id := 2, pageId := 4, language := "en-us", type := "body",
    body := "stale", creation_date := 3 }

/-- Concrete instance for C7: two existing versions for the key, the
later one (`c7old`) being the latest. -/
def c7db : List ContentRec := [c7stale, c7old]

/-- `c7old` overwritten with the new body. -/
def c7newRow : ContentRec :=
  { id := 1, pageId := 4, language := "en-us", type := "body",
    body := "new", creation_date := 5 }

/-- Witness for C7: the latest of the two existing versions is the row
overwritten — the table becomes exactly the in-place update of that
row, the stale earlier version survives, and the key's latest body
afterwards is the new body. -/
theorem set_or_create_content_witness :
    (set_or_create_content c7db 9 10 4 "en-us" "body" "new").2 =
      c7newRow ∧
    (set_or_create_content c7db 9 10 4 "en-us" "body" "new").1 =
      updateById c7db 1 c7newRow ∧
    latestBy (contentFor (set_or_create_content c7db 9 10 4 "en-us"
      "body" "new").1 4 "en-us" "body") = some c7newRow ∧
    c7stale ∈ (set_or_create_content c7db 9 10 4 "en-us" "body"
      "new").1 := by
  have h := set_or_create_content_spec c7db 9 10 4 "en-us" "body" "new"
    (by decide)
  have hc := h.2.1 c7old (by decide)
  exact ⟨hc.1, hc.2.1, hc.2.2.1,
    hc.2.2.2 c7stale (by decide) (by decide)⟩

theorem descDate_trans (a b c : ContentRec) :
    descDate a b → descDate b c → descDate a c := by
  simp only [descDate, decide_eq_true_eq]
  omega

theorem descDate_total (a b : ContentRec) :
    descDate a b || descDate b a := by
  simp only [descDate]
  rcases Nat.le_total b.creation_date a.creation_date with h | h <;> simp [h]

theorem createAndPrune_length (st : PageSettings) (db : List ContentRec)
    (newId now pid : Nat) (language ctype body : String) :
    (createAndPrune st db newId now pid language ctype body).1.length ≤
      db.length + 1 := by
  unfold createAndPrune
  split
  · calc (List.filter _ (db ++ [newContent newId now pid language ctype body])).length
        ≤ (db ++ [newContent newId now pid language ctype body]).length :=
          List.length_filter_le _ _
      _ = db.length + 1 := by simp
  · simp

/-- After `createAndPrune` with a timestamp strictly later than every
existing version for the key and a fresh primary key, the new row is
returned, survives pruning, every other surviving version for the key
is strictly older, and the new row is the latest for the key. -/
theorem createAndPrune_latest (st : PageSettings) (db : List ContentRec)
    (newId now pid : Nat) (language ctype body : String)
    (hdates : ∀ c ∈ contentFor db pid language ctype,
      c.creation_date < now)
    (hfresh : ∀ c ∈ db, c.id ≠ newId) :
    (createAndPrune st db newId now pid language ctype body).2 =
        newContent newId now pid language ctype body ∧
    newContent newId now pid language ctype body ∈
      contentFor (createAndPrune st db newId now pid language ctype
        body).1 pid language ctype ∧
    (∀ y ∈ contentFor (createAndPrune st db newId now pid language ctype
        body).1 pid language ctype,
      y ≠ newContent newId now pid language ctype body →
        y.creation_date < now) ∧
    latestBy (contentFor (createAndPrune st db newId now pid language
        ctype body).1 pid language ctype) =
      some (newContent newId now pid language ctype body) := by
  set newc := newContent newId now pid language ctype body with hnewc
  have hkey : keyPred pid language ctype newc = true := by
    simp [keyPred, hnewc, newContent]
  have hkrows1 : contentFor (db ++ [newc]) pid language ctype =
      contentFor db pid language ctype ++ [newc] := by
    simp [contentFor, List.filter_append, hkey]
  have hnmemdb : newc ∉ db := by
    intro hmem
    exact hfresh newc hmem (by simp [hnewc, newContent])
  have hnmemk : newc ∉ contentFor db pid language ctype := by
    intro hmem
    exact hnmemdb (List.mem_of_mem_filter hmem)
  have hmemstep : ∀ y, y ∈ contentFor (createAndPrune st db newId now
      pid language ctype body).1 pid language ctype →
      y = newc ∨ y ∈ contentFor db pid language ctype := by
    intro y hy
    have hykey : keyPred pid language ctype y = true :=
      List.of_mem_filter hy
    have hy1 : y ∈ (createAndPrune st db newId now pid language ctype
        body).1 := List.mem_of_mem_filter hy
    have hy2 : y ∈ db ++ [newc] := by
      unfold createAndPrune at hy1
      split at hy1
      · exact List.mem_of_mem_filter hy1
      · exact hy1
    rcases List.mem_append.mp hy2 with h | h
    · exact Or.inr (List.mem_filter.mpr ⟨h, hykey⟩)
    · simp only [List.mem_singleton] at h
      exact Or.inl h
  have hmemnew : newc ∈ contentFor (createAndPrune st db newId now pid
      language ctype body).1 pid language ctype := by
    unfold createAndPrune
    rw [← hnewc]
    split
    case isTrue hdep =>
      refine List.mem_filter.mpr ⟨?_, hkey⟩
      refine List.mem_filter.mpr ⟨List.mem_append.mpr (Or.inr (by simp)), ?_⟩
      rw [hkrows1]
      simp only [Bool.not_eq_eq_eq_not, Bool.not_true, List.any_eq_false,
        beq_iff_eq]
      intro v hv
      have hvs : v ∈ (contentFor db pid language ctype ++ [newc]).mergeSort
          descDate := List.mem_of_mem_drop hv
      have hvmem : v ∈ contentFor db pid language ctype ++ [newc] :=
        (List.mergeSort_perm _ _).mem_iff.mp hvs
      rcases List.mem_append.mp hvmem with h | h
      · intro hid
        exact hfresh v (List.mem_of_mem_filter h) hid
      · simp only [List.mem_singleton] at h
        subst h
        exfalso
        -- `newc` cannot be among the dropped oldest revisions
        set sorted := (contentFor db pid language ctype ++ [newc]).mergeSort
          descDate with hsorted
        have hsortpw : sorted.Pairwise (fun a b => descDate a b = true) :=
          List.sorted_mergeSort descDate_trans descDate_total _
        have hsplit : sorted.take st.PAGE_CONTENT_REVISION_DEPTH ++
            sorted.drop st.PAGE_CONTENT_REVISION_DEPTH = sorted :=
          List.take_append_drop _ _
        have hpw2 := hsortpw
        rw [← hsplit] at hpw2
        have hcross := (List.pairwise_append.mp hpw2).2.2
        have hlen : sorted.length =
            (contentFor db pid language ctype).length + 1 := by
          rw [(List.mergeSort_perm _ _).length_eq]
          simp
        have hdrlt : st.PAGE_CONTENT_REVISION_DEPTH < sorted.length := by
          by_contra hge
          rw [List.drop_eq_nil_of_le (Nat.le_of_not_lt hge)] at hv
          cases hv
        have htkne : sorted.take st.PAGE_CONTENT_REVISION_DEPTH ≠ [] := by
          intro hnil
          have h1 : (sorted.take st.PAGE_CONTENT_REVISION_DEPTH).length
              = 0 := by rw [hnil]; rfl
          rw [List.length_take] at h1
          rcases Nat.min_eq_zero_iff.mp h1 with h2 | h2
          · exact hdep h2
          · omega
        obtain ⟨y, hy⟩ := List.exists_mem_of_ne_nil _ htkne
        have hyx := hcross y hy newc hv
        have hynew : y ≠ newc := by
          intro heq
          subst heq
          have hcount : sorted.count newc =
              (contentFor db pid language ctype ++ [newc]).count newc :=
            (List.mergeSort_perm _ _).count_eq newc
          have hc1 : (contentFor db pid language ctype ++
              [newc]).count newc = 1 := by
            rw [List.count_append]
            rw [List.count_eq_zero_of_not_mem hnmemk]
            simp
          have hc2 : 2 ≤ sorted.count newc := by
            rw [← hsplit, List.count_append]
            have ht1 : 1 ≤ (sorted.take
                st.PAGE_CONTENT_REVISION_DEPTH).count newc :=
              List.one_le_count_iff.mpr hy
            have ht2 : 1 ≤ (sorted.drop
                st.PAGE_CONTENT_REVISION_DEPTH).count newc :=
              List.one_le_count_iff.mpr hv
            omega
          omega
        have hymem : y ∈ contentFor db pid language ctype := by
          have hys : y ∈ sorted :=
            List.mem_of_mem_take hy
          have := (List.mergeSort_perm _ _).mem_iff.mp hys
          rcases List.mem_append.mp this with h | h
          · exact h
          · simp only [List.mem_singleton] at h
            exact absurd h hynew
        have hlt := hdates y hymem
        simp only [descDate, decide_eq_true_eq] at hyx
        have : newc.creation_date = now := by simp [hnewc, newContent]
        omega
    case isFalse hdep =>
      rw [hkrows1]
      exact List.mem_append.mpr (Or.inr (by simp))
  have hstrict : ∀ y ∈ contentFor (createAndPrune st db newId now pid
      language ctype body).1 pid language ctype, y ≠ newc →
      y.creation_date < now := by
    intro y hy hne
    rcases hmemstep y hy with h | h
    · exact absurd h hne
    · exact hdates y h
  have hsnd : (createAndPrune st db newId now pid language ctype
      body).2 = newc := by
    unfold createAndPrune
    rw [← hnewc]
    split <;> rfl
  refine ⟨hsnd, hmemnew, hstrict, ?_⟩
  apply latestBy_of_strict_max _ _ hmemnew
  intro y hy hne
  have := hstrict y hy hne
  have hnow : newc.creation_date = now := by simp [hnewc, newContent]
  omega

/-- Running `create_content_if_changed` with the same body right after
a creation step returns the row created by that step and leaves the
table untouched. -/
theorem create_after_createAndPrune (st : PageSettings)
    (db : List ContentRec) (id1 id2 now1 now2 pid : Nat)
    (language ctype body : String)
    (hdates : ∀ c ∈ contentFor db pid language ctype,
      c.creation_date < now1)
    (hfresh : ∀ c ∈ db, c.id ≠ id1) :
    create_content_if_changed st
        (createAndPrune st db id1 now1 pid language ctype body).1
        id2 now2 pid language ctype body =
      ((createAndPrune st db id1 now1 pid language ctype body).1,
        newContent id1 now1 pid language ctype body) := by
  obtain ⟨hsnd, hmem, hstr, hlatest⟩ :=
    createAndPrune_latest st db id1 now1 pid language ctype body
      hdates hfresh
  unfold create_content_if_changed
  rw [hlatest]
  simp [newContent]

/-- C5: `create_content_if_changed` is idempotent: after a call with
some body (made at a time strictly later than every existing version
for the key, with a fresh primary key), a second call with the same
body returns the same row, changes nothing, and overall at most one
version was added beyond the prior state. -/
theorem create_content_if_changed_idempotent (st : PageSettings)
    (db : List ContentRec) (id1 id2 now1 now2 pid : Nat)
    (language ctype body : String)
    (hdates : ∀ c ∈ contentFor db pid language ctype,
      c.creation_date < now1)
    (hfresh : ∀ c ∈ db, c.id ≠ id1) :
    (create_content_if_changed st
        (create_content_if_changed st db id1 now1 pid language ctype
          body).1 id2 now2 pid language ctype body).1 =
      (create_content_if_changed st db id1 now1 pid language ctype
        body).1 ∧
    (create_content_if_changed st
        (create_content_if_changed st db id1 now1 pid language ctype
          body).1 id2 now2 pid language ctype body).2 =
      (create_content_if_changed st db id1 now1 pid language ctype
        body).2 ∧
    (create_content_if_changed st db id1 now1 pid language ctype
      body).2.body = body ∧
    (create_content_if_changed st db id1 now1 pid language ctype
      body).1.length ≤ db.length + 1 := by
  have hcreated : ∀ hEq : create_content_if_changed st db id1 now1 pid
      language ctype body =
      createAndPrune st db id1 now1 pid language ctype body,
      (create_content_if_changed st
          (create_content_if_changed st db id1 now1 pid language ctype
            body).1 id2 now2 pid language ctype body).1 =
        (create_content_if_changed st db id1 now1 pid language ctype
          body).1 ∧
      (create_content_if_changed st
          (create_content_if_changed st db id1 now1 pid language ctype
            body).1 id2 now2 pid language ctype body).2 =
        (create_content_if_changed st db id1 now1 pid language ctype
          body).2 ∧
      (create_content_if_changed st db id1 now1 pid language ctype
        body).2.body = body ∧
      (create_content_if_changed st db id1 now1 pid language ctype
        body).1.length ≤ db.length + 1 := by
    intro hEq
    obtain ⟨hsnd, hmem, hstr, hlatest⟩ :=
      createAndPrune_latest st db id1 now1 pid language ctype body
        hdates hfresh
    have hsecond := create_after_createAndPrune st db id1 id2 now1 now2
      pid language ctype body hdates hfresh
    rw [hEq, hsecond]
    refine ⟨rfl, by rw [hsnd], by rw [hsnd]; rfl, ?_⟩
    exact createAndPrune_length st db id1 now1 pid language ctype body
  rcases hl : latestBy (contentFor db pid language ctype) with _ | c
  · apply hcreated
    unfold create_content_if_changed
    rw [hl]
  · by_cases hb : c.body = body
    · have h1 : create_content_if_changed st db id1 now1 pid language
          ctype body = (db, c) := by
        unfold create_content_if_changed
        rw [hl]
        simp [hb]
      have h2 : create_content_if_changed st db id2 now2 pid language
          ctype body = (db, c) := by
        unfold create_content_if_changed
        rw [hl]
        simp [hb]
      rw [h1]
      rw [h2]
      exact ⟨rfl, rfl, hb, by simp⟩
    · apply hcreated
      unfold create_content_if_changed
      rw [hl]
      simp [hb]

/-- Concrete instance for C5: one older version ("old", time 3) for the
key; the first call at time 6 creates "new", the second call is a
no-op. -/
def c5db : List ContentRec :=
  [ { id := 1, pageId := 4, language := "en-us", type := "body",
      body := "old", creation_date := 3 } ]

/-- Witness for C5 at the one-version instance, with revision depth 2
configured. -/
theorem create_content_if_changed_idempotent_witness :
    (create_content_if_changed ⟨true, true, 2⟩
        (create_content_if_changed ⟨true, true, 2⟩ c5db 8 6 4 "en-us"
          "body" "new").1 9 7 4 "en-us" "body" "new").1 =
      (create_content_if_changed ⟨true, true, 2⟩ c5db 8 6 4 "en-us"
        "body" "new").1 ∧
    (create_content_if_changed ⟨true, true, 2⟩
        (create_content_if_changed ⟨true, true, 2⟩ c5db 8 6 4 "en-us"
          "body" "new").1 9 7 4 "en-us" "body" "new").2 =
      (create_content_if_changed ⟨true, true, 2⟩ c5db 8 6 4 "en-us"
        "body" "new").2 ∧
    (create_content_if_changed ⟨true, true, 2⟩ c5db 8 6 4 "en-us"
      "body" "new").2.body = "new" ∧
    (create_content_if_changed ⟨true, true, 2⟩ c5db 8 6 4 "en-us"
      "body" "new").1.length ≤ c5db.length + 1 :=
  create_content_if_changed_idempotent ⟨true, true, 2⟩ c5db 8 9 6 7 4
    "en-us" "body" "new" (by decide) (by decide)

/-! ### Retention (C6): repeated writes through
`create_content_if_changed` -/

/-- The records produced by a sequence of indexed writes: the write
with (1-based) index `j` and body `b` creates the row with primary key
`j` at time `j`. -/
def wRecs (pid : Nat) (language ctype : String)
    (w : List (Nat × String)) : List ContentRec :=
  w.map (fun x => newContent x.1 x.1 pid language ctype x.2)

/-- Successive calls of `create_content_if_changed`, the `j`-th call
using primary key `j` and time `j`. -/
def writeSeq (st : PageSettings) (pid : Nat) (language ctype : String) :
    List String → Nat → List ContentRec → List ContentRec
  | [], _, db => db
  | b :: rest, j, db =>
      writeSeq st pid language ctype rest (j + 1)
        (create_content_if_changed st db j j pid language ctype b).1

/-- N+1 writes with the given bodies against an initially empty content
table. -/
def writeAll (st : PageSettings) (pid : Nat) (language ctype : String)
    (bodies : List String) : List ContentRec :=
  writeSeq st pid language ctype bodies 1 []

/-- The bodies paired with their 1-based write indices starting at
`j`. -/
def indexedFrom : Nat → List String → List (Nat × String)
  | _, [] => []
  | j, b :: rest => (j, b) :: indexedFrom (j + 1) rest

/-- The last `n` entries of a list. -/
def lastN (n : Nat) (l : List (Nat × String)) : List (Nat × String) :=
  l.drop (l.length - n)

/-- Strict descending order on creation dates. -/
def dateGT (a b : ContentRec) : Prop :=
  b.creation_date < a.creation_date

theorem keyPred_newContent (i n pid : Nat) (language ctype b : String) :
    keyPred pid language ctype (newContent i n pid language ctype b)
      = true := by
  simp [keyPred, newContent]

theorem contentFor_wRecs (pid : Nat) (language ctype : String)
    (w : List (Nat × String)) :
    contentFor (wRecs pid language ctype w) pid language ctype =
      wRecs pid language ctype w := by
  unfold contentFor wRecs
  rw [List.filter_eq_self]
  intro a ha
  obtain ⟨x, hx, rfl⟩ := List.mem_map.mp ha
  exact keyPred_newContent _ _ _ _ _ _

/-- Two permuted lists that are both strictly descending by date are
equal. -/
theorem perm_strictdesc_unique : ∀ l₁ l₂ : List ContentRec,
    l₁.Perm l₂ → l₁.Pairwise dateGT → l₂.Pairwise dateGT → l₁ = l₂ := by
  intro l₁
  induction l₁ with
  | nil =>
      intro l₂ hperm _ _
      exact List.Perm.nil_eq hperm
  | cons a t₁ ih =>
      intro l₂ hperm hp₁ hp₂
      cases l₂ with
      | nil => exact absurd hperm.symm (by simp)
      | cons b t₂ =>
          have hab : a = b := by
            by_contra hne
            have ha2 : a ∈ b :: t₂ := hperm.mem_iff.mp (by simp)
            have hb1 : b ∈ a :: t₁ := hperm.mem_iff.mpr (by simp)
            have h1 : dateGT b a := by
              rcases List.mem_cons.mp ha2 with h | h
              · exact absurd h hne
              · exact (List.pairwise_cons.mp hp₂).1 a h
            have h2 : dateGT a b := by
              rcases List.mem_cons.mp hb1 with h | h
              · exact absurd h.symm hne
              · exact (List.pairwise_cons.mp hp₁).1 b h
            unfold dateGT at h1 h2
            omega
          subst hab
          have htperm : t₁.Perm t₂ := hperm.cons_inv
          rw [ih t₂ htperm (List.pairwise_cons.mp hp₁).2
            (List.pairwise_cons.mp hp₂).2]

/-- On a list whose creation dates are strictly increasing,
`order_by('-creation_date')` produces exactly the reversal. -/
theorem mergeSort_descDate_of_ascending (l : List ContentRec)
    (hasc : l.Pairwise (fun a b =>
      a.creation_date < b.creation_date)) :
    l.mergeSort descDate = l.reverse := by
  apply perm_strictdesc_unique
  · exact (List.mergeSort_perm l descDate).trans
      (List.reverse_perm l).symm
  · have hpair : (l.mergeSort descDate).Pairwise
        (fun a b => descDate a b = true) :=
      List.sorted_mergeSort descDate_trans descDate_total l
    have hnodup : (l.map (fun c => c.creation_date)).Nodup :=
      List.pairwise_map.mpr (hasc.imp (by omega))
    have hnodup2 : ((l.mergeSort descDate).map
        (fun c => c.creation_date)).Nodup :=
      ((List.mergeSort_perm l descDate).map _).nodup_iff.mpr hnodup
    have hne2 : (l.mergeSort descDate).Pairwise
        (fun a b => a.creation_date ≠ b.creation_date) :=
      List.pairwise_map.mp hnodup2
    have := hpair.and hne2
    apply this.imp
    intro a b hab
    obtain ⟨h1, h2⟩ := hab
    simp only [descDate, decide_eq_true_eq] at h1
    unfold dateGT
    omega
  · rw [List.pairwise_reverse]
    exact hasc.imp (by intro a b h; unfold dateGT; omega)

/-- On an ascending window the latest version is the last write. -/
theorem latestBy_wRecs_ascending (pid : Nat) (language ctype : String)
    (w : List (Nat × String)) (hne : w ≠ [])
    (hasc : w.Pairwise (fun a b => a.1 < b.1)) :
    latestBy (wRecs pid language ctype w) =
      some (newContent (w.getLast hne).1 (w.getLast hne).1 pid language
        ctype (w.getLast hne).2) := by
  apply latestBy_of_strict_max
  · exact List.mem_map.mpr ⟨w.getLast hne, List.getLast_mem hne, rfl⟩
  · intro y hy hyne
    obtain ⟨x, hx, rfl⟩ := List.mem_map.mp hy
    have hdec : w.dropLast ++ [w.getLast hne] = w :=
      List.dropLast_append_getLast hne
    have hasc2 := hasc
    rw [← hdec] at hasc2
    have hcross := (List.pairwise_append.mp hasc2).2.2
    have hx2 := hx
    rw [← hdec] at hx2
    rcases List.mem_append.mp hx2 with h | h
    · have := hcross x h (w.getLast hne) (by simp)
      simp [newContent]
      omega
    · simp only [List.mem_singleton] at h
      subst h
      exact absurd rfl hyne

/-- One write through `create_content_if_changed` against an ascending
window whose last body differs from the new one: the new row is
appended and the window is truncated to its last
`PAGE_CONTENT_REVISION_DEPTH` entries. -/
theorem write_step (st : PageSettings)
    (hN : st.PAGE_CONTENT_REVISION_DEPTH ≠ 0)
    (pid : Nat) (language ctype : String) (w : List (Nat × String))
    (j : Nat) (b : String)
    (hasc : w.Pairwise (fun a b => a.1 < b.1))
    (hlt : ∀ x ∈ w, x.1 < j)
    (hlastne : ∀ lp ∈ w.getLast?, lp.2 ≠ b) :
    (create_content_if_changed st (wRecs pid language ctype w) j j pid
      language ctype b).1 =
    wRecs pid language ctype
      (lastN st.PAGE_CONTENT_REVISION_DEPTH (w ++ [(j, b)])) := by
  have hstep : create_content_if_changed st (wRecs pid language ctype w)
      j j pid language ctype b =
      createAndPrune st (wRecs pid language ctype w) j j pid language
        ctype b := by
    unfold create_content_if_changed
    rw [contentFor_wRecs]
    by_cases hw : w = []
    · subst hw
      rfl
    · rw [latestBy_wRecs_ascending pid language ctype w hw hasc]
      have hne2 : (w.getLast hw).2 ≠ b :=
        hlastne _ (by rw [List.getLast?_eq_getLast w hw]; simp)
      simp [newContent, hne2]
  rw [hstep]
  -- the creation branch
  have hdb1 : wRecs pid language ctype w ++
      [newContent j j pid language ctype b] =
      wRecs pid language ctype (w ++ [(j, b)]) := by
    simp [wRecs]
  have hasc2 : (w ++ [(j, b)]).Pairwise (fun a b => a.1 < b.1) := by
    rw [List.pairwise_append]
    exact ⟨hasc, by simp, fun x hx y hy => by
      simp only [List.mem_singleton] at hy
      subst hy
      exact hlt x hx⟩
  have hdates : (wRecs pid language ctype (w ++ [(j, b)])).Pairwise
      (fun a b => a.creation_date < b.creation_date) := by
    unfold wRecs
    rw [List.pairwise_map]
    exact hasc2.imp (by intro a b h; simpa [newContent] using h)
  have hsort : (wRecs pid language ctype (w ++ [(j, b)])).mergeSort
      descDate = (wRecs pid language ctype (w ++ [(j, b)])).reverse :=
    mergeSort_descDate_of_ascending _ hdates
  have hcap : (createAndPrune st (wRecs pid language ctype w) j j pid
      language ctype b).1 =
      (wRecs pid language ctype (w ++ [(j, b)])).filter
        (fun c => !(((wRecs pid language ctype
            (w ++ [(j, b)])).reverse.drop
            st.PAGE_CONTENT_REVISION_DEPTH).any
          (fun v => v.id == c.id))) := by
    unfold createAndPrune
    simp only [hdb1, contentFor_wRecs, hsort]
    rw [if_pos hN]
  rw [hcap]
  -- name the full record list and split it at the retention boundary
  have hlen : (wRecs pid language ctype (w ++ [(j, b)])).length =
      (w ++ [(j, b)]).length := by simp [wRecs]
  have hids : (w ++ [(j, b)]).Pairwise (fun a b => a.1 ≠ b.1) :=
    hasc2.imp (by omega)
  have hdroprev : (wRecs pid language ctype (w ++ [(j, b)])).reverse.drop
      st.PAGE_CONTENT_REVISION_DEPTH =
      ((wRecs pid language ctype (w ++ [(j, b)])).take
        ((wRecs pid language ctype (w ++ [(j, b)])).length -
          st.PAGE_CONTENT_REVISION_DEPTH)).reverse :=
    List.drop_reverse
  rw [hdroprev]
  set L := wRecs pid language ctype (w ++ [(j, b)]) with hL
  set k := L.length - st.PAGE_CONTENT_REVISION_DEPTH with hk
  have hLids : (L.map (fun c => c.id)).Pairwise (fun a b => a ≠ b) := by
    rw [hL]
    unfold wRecs
    rw [List.map_map, List.pairwise_map]
    have : ∀ x : Nat × String,
        ((fun c : ContentRec => c.id) ∘
          (fun x : Nat × String =>
            newContent x.1 x.1 pid language ctype x.2)) x = x.1 := by
      intro x
      rfl
    exact List.Pairwise.imp (by intro a b h; simpa [this] using h) hids
  have hsplitL : L.take k ++ L.drop k = L := List.take_append_drop _ _
  have hfilter : L.filter
      (fun c => !((L.take k).reverse.any (fun v => v.id == c.id))) =
      L.drop k := by
    have hgoal : L.filter
        (fun c => !((L.take k).reverse.any (fun v => v.id == c.id))) =
        (L.take k ++ L.drop k).filter
          (fun c => !((L.take k).reverse.any (fun v => v.id == c.id)))
        := by rw [hsplitL]
    rw [hgoal, List.filter_append]
    have h1 : (L.take k).filter
        (fun c => !((L.take k).reverse.any (fun v => v.id == c.id)))
        = [] := by
      rw [List.filter_eq_nil_iff]
      intro c hc
      have hany : (L.take k).reverse.any (fun v => v.id == c.id)
          = true :=
        List.any_eq_true.mpr ⟨c, List.mem_reverse.mpr hc, by simp⟩
      simp [hany]
    have h2 : (L.drop k).filter
        (fun c => !((L.take k).reverse.any (fun v => v.id == c.id)))
        = L.drop k := by
      rw [List.filter_eq_self]
      intro c hc
      simp only [Bool.not_eq_eq_eq_not, Bool.not_true,
        List.any_eq_false, beq_iff_eq]
      intro v hv
      have hvtake : v ∈ L.take k := List.mem_reverse.mp hv
      have hpwids := hLids
      rw [← hsplitL, List.map_append] at hpwids
      have hcross := (List.pairwise_append.mp hpwids).2.2
      exact hcross v.id (List.mem_map_of_mem _ hvtake) c.id
        (List.mem_map_of_mem _ hc)
    rw [h1, h2, List.nil_append]
  rw [hfilter, hk]
  have hlen2 : L.length = (w ++ [(j, b)]).length := by
    rw [hL]
    exact hlen
  rw [hlen2]
  unfold lastN wRecs
  rw [List.map_drop]
  rw [hL]
  rfl

theorem chain'_drop {α : Type} (r : α → α → Prop) :
    ∀ (m : Nat) (l : List α), l.Chain' r → (l.drop m).Chain' r := by
  intro m
  induction m with
  | zero => intro l h; simpa using h
  | succ m ih =>
      intro l h
      rw [← List.tail_drop]
      exact (ih l h).tail

theorem lastN_length_le (n : Nat) (l : List (Nat × String)) :
    (lastN n l).length ≤ n := by
  unfold lastN
  rw [List.length_drop]
  omega

theorem lastN_lastN_append (n : Nat) (u v : List (Nat × String)) :
    lastN n (lastN n u ++ v) = lastN n (u ++ v) := by
  unfold lastN
  rw [← List.drop_append_of_le_length
    (show u.length - n ≤ u.length by omega)]
  rw [List.drop_drop]
  rw [List.length_drop, List.length_append]
  congr 1
  omega

theorem indexedFrom_length : ∀ (j : Nat) (l : List String),
    (indexedFrom j l).length = l.length := by
  intro j l
  induction l generalizing j with
  | nil => rfl
  | cons b rest ih => simp [indexedFrom, ih]

theorem mem_indexedFrom : ∀ (j : Nat) (l : List String)
    (x : Nat × String), x ∈ indexedFrom j l → j ≤ x.1 := by
  intro j l
  induction l generalizing j with
  | nil => intro x hx; cases hx
  | cons b rest ih =>
      intro x hx
      rcases List.mem_cons.mp hx with rfl | hx
      · exact Nat.le_refl _
      · exact Nat.le_trans (Nat.le_succ _) (ih (j + 1) x hx)

theorem indexedFrom_pairwise : ∀ (j : Nat) (l : List String),
    (indexedFrom j l).Pairwise (fun a b => a.1 < b.1) := by
  intro j l
  induction l generalizing j with
  | nil => exact List.Pairwise.nil
  | cons b rest ih =>
      rw [indexedFrom, List.pairwise_cons]
      refine ⟨?_, ih (j + 1)⟩
      intro x hx
      have := mem_indexedFrom (j + 1) rest x hx
      omega

theorem indexedFrom_map_snd : ∀ (j : Nat) (l : List String),
    (indexedFrom j l).map Prod.snd = l := by
  intro j l
  induction l generalizing j with
  | nil => rfl
  | cons b rest ih => simp [indexedFrom, ih]

/-- The window invariant for a run of `create_content_if_changed`
writes: starting from the retained window `w`, the final table holds
exactly the last `PAGE_CONTENT_REVISION_DEPTH` writes. -/
theorem writeSeq_window (st : PageSettings)
    (hN : st.PAGE_CONTENT_REVISION_DEPTH ≠ 0)
    (pid : Nat) (language ctype : String) :
    ∀ (bodies : List String) (j : Nat) (w : List (Nat × String)),
      w.Pairwise (fun a b => a.1 < b.1) →
      (∀ x ∈ w, x.1 < j) →
      (w.map Prod.snd ++ bodies).Chain' (fun a b => a ≠ b) →
      w.length ≤ st.PAGE_CONTENT_REVISION_DEPTH →
      writeSeq st pid language ctype bodies j
          (wRecs pid language ctype w) =
        wRecs pid language ctype
          (lastN st.PAGE_CONTENT_REVISION_DEPTH
            (w ++ indexedFrom j bodies)) := by
  intro bodies
  induction bodies with
  | nil =>
      intro j w hasc hlt hchain hwlen
      unfold writeSeq indexedFrom lastN
      rw [List.append_nil, Nat.sub_eq_zero_of_le hwlen, List.drop_zero]
  | cons b rest ih =>
      intro j w hasc hlt hchain hwlen
      have hlast : ∀ lp ∈ w.getLast?, lp.2 ≠ b := by
        intro lp hlp
        have hcs := (List.chain'_append.mp hchain).2.2
        exact hcs lp.2 (by rw [List.getLast?_map]; exact
          Option.mem_map_of_mem _ hlp) b rfl
      unfold writeSeq
      rw [write_step st hN pid language ctype w j b hasc hlt hlast]
      have hasc2 : (w ++ [(j, b)]).Pairwise (fun a b => a.1 < b.1) := by
        rw [List.pairwise_append]
        exact ⟨hasc, by simp, fun x hx y hy => by
          simp only [List.mem_singleton] at hy
          subst hy
          exact hlt x hx⟩
      have h1 : (lastN st.PAGE_CONTENT_REVISION_DEPTH
          (w ++ [(j, b)])).Pairwise (fun a b => a.1 < b.1) :=
        hasc2.sublist (List.drop_sublist _ _)
      have h2 : ∀ x ∈ lastN st.PAGE_CONTENT_REVISION_DEPTH
          (w ++ [(j, b)]), x.1 < j + 1 := by
        intro x hx
        have hx2 : x ∈ w ++ [(j, b)] :=
          (List.drop_sublist _ _).mem hx
        rcases List.mem_append.mp hx2 with h | h
        · have := hlt x h; omega
        · simp only [List.mem_singleton] at h; subst h; omega
      have h3 : ((lastN st.PAGE_CONTENT_REVISION_DEPTH
          (w ++ [(j, b)])).map Prod.snd ++ rest).Chain'
          (fun a b => a ≠ b) := by
        unfold lastN
        rw [List.map_drop]
        rw [← List.drop_append_of_le_length (show
          (w ++ [(j, b)]).length - st.PAGE_CONTENT_REVISION_DEPTH ≤
            ((w ++ [(j, b)]).map Prod.snd).length by
          rw [List.length_map]; omega)]
        apply chain'_drop
        rw [List.map_append]
        simpa using hchain
      have h4 : (lastN st.PAGE_CONTENT_REVISION_DEPTH
          (w ++ [(j, b)])).length ≤ st.PAGE_CONTENT_REVISION_DEPTH :=
        lastN_length_le _ _
      rw [ih (j + 1) (lastN st.PAGE_CONTENT_REVISION_DEPTH
        (w ++ [(j, b)])) h1 h2 h3 h4]
      rw [lastN_lastN_append]
      rw [List.append_assoc]
      rfl

/-- C6: with a configured revision depth N >= 1, after N+1 writes with
pairwise distinct bodies against an initially empty content table, the
table holds exactly the rows of the writes 2..N+1 (the newest N), all
for the key; in particular N versions remain and the row of the first
(oldest) write has been deleted. -/
theorem retention_after_writes (st : PageSettings)
    (pid : Nat) (language ctype : String) (bodies : List String)
    (hN : 1 ≤ st.PAGE_CONTENT_REVISION_DEPTH)
    (hlen : bodies.length = st.PAGE_CONTENT_REVISION_DEPTH + 1)
    (hdist : bodies.Pairwise (fun a b => a ≠ b)) :
    writeAll st pid language ctype bodies =
      wRecs pid language ctype ((indexedFrom 1 bodies).drop 1) ∧
    (contentFor (writeAll st pid language ctype bodies) pid language
      ctype).length = st.PAGE_CONTENT_REVISION_DEPTH ∧
    (∀ b0, bodies.head? = some b0 →
      newContent 1 1 pid language ctype b0 ∉
        writeAll st pid language ctype bodies) := by
  have hN0 : st.PAGE_CONTENT_REVISION_DEPTH ≠ 0 := by omega
  have hmain : writeAll st pid language ctype bodies =
      wRecs pid language ctype ((indexedFrom 1 bodies).drop 1) := by
    unfold writeAll
    have := writeSeq_window st hN0 pid language ctype bodies 1 []
      List.Pairwise.nil (by simp) (by simpa using hdist.chain')
      (by simp)
    rw [show wRecs pid language ctype [] = [] from rfl] at this
    rw [this]
    congr 1
    unfold lastN
    rw [List.nil_append, indexedFrom_length, hlen]
    congr 1
    omega
  refine ⟨hmain, ?_, ?_⟩
  · rw [hmain, contentFor_wRecs]
    unfold wRecs
    rw [List.length_map, List.length_drop, indexedFrom_length, hlen]
    omega
  · intro b0 hb0
    rw [hmain]
    intro hmem
    unfold wRecs at hmem
    obtain ⟨x, hx, hxeq⟩ := List.mem_map.mp hmem
    have hx2 : x ∈ indexedFrom 1 bodies := (List.drop_sublist _ _).mem hx
    have hxid : x.1 = 1 := by
      have h5 := congrArg (fun c => c.id) hxeq
      simp only [newContent] at h5
      omega
    cases bodies with
    | nil => cases hb0
    | cons bb rest =>
        have hxin : x ∈ (indexedFrom 2 rest) := by
          rcases List.mem_cons.mp hx2 with h | h
          · -- x is the head (1, bb): but the head was dropped
            subst h
            have hd : indexedFrom 1 (bb :: rest) =
                (1, bb) :: indexedFrom 2 rest := rfl
            rw [hd] at hx
            simp only [List.drop_succ_cons, List.drop_zero] at hx
            exact hx
          · exact h
        have := mem_indexedFrom 2 rest x hxin
        omega

/-- Witness for C6: depth 2, three writes "a", "b", "c"; the table ends
with exactly the two newest versions and the first write's row is
gone. -/
theorem retention_after_writes_witness :
    writeAll (⟨true, true, 2⟩ : PageSettings) 4 "en-us" "body"
        ["a", "b", "c"] =
      wRecs 4 "en-us" "body" ((indexedFrom 1 ["a", "b", "c"]).drop 1) ∧
    (contentFor (writeAll (⟨true, true, 2⟩ : PageSettings) 4 "en-us"
      "body" ["a", "b", "c"]) 4 "en-us" "body").length = 2 ∧
    (∀ b0, (["a", "b", "c"] : List String).head? = some b0 →
      newContent 1 1 4 "en-us" "body" b0 ∉
        writeAll (⟨true, true, 2⟩ : PageSettings) 4 "en-us" "body"
          ["a", "b", "c"]) :=
  retention_after_writes (⟨true, true, 2⟩ : PageSettings) 4 "en-us"
    "body" ["a", "b", "c"] (by decide) (by decide) (by decide)

/-- C10: for every page, language and content table, `get_content`
with ctype "slug" returns the page's own slug field and with ctype
"title" returns the page record's own `title` attribute; the right
hand sides never mention the Content table, so neither special case
reads Content rows, whatever rows are stored under those types. -/
theorem get_content_slug_title_special (langs : List String)
    (defaultLanguage : String) (db : List ContentRec) (page : PageRec)
    (language : Option String) (language_fallback : Bool) :
    page_get_content langs defaultLanguage db page language "slug"
        language_fallback = .ok (.text page.slug) ∧
    manager_get_content langs defaultLanguage db page language "slug"
        language_fallback = .ok (.text page.slug) ∧
    page_get_content langs defaultLanguage db page language "title"
        language_fallback = .ok (.titleAttribute page) ∧
    manager_get_content langs defaultLanguage db page language "title"
        language_fallback = .ok (.titleAttribute page) := by
  refine ⟨rfl, ?_, ?_, ?_⟩ <;>
    simp [manager_get_content, page_get_content]

/-! ### Decimal representation facts used by the slug-collision loop -/

/-- The numeric value of a decimal digit character. -/
def digitVal (c : Char) : Nat := c.toNat - 48

/-- One step of reading a decimal string left to right. -/
def decimalStep (acc : Nat) (c : Char) : Nat := acc * 10 + digitVal c

theorem digitChar_val (d : Nat) (h : d < 10) :
    digitVal (Nat.digitChar d) = d := by
  interval_cases d <;> rfl

theorem toDigitsCore_foldl : ∀ (fuel n : Nat) (ds : List Char),
    n < fuel →
    (Nat.toDigitsCore 10 fuel n ds).foldl decimalStep 0 =
      ds.foldl decimalStep n := by
  intro fuel
  induction fuel with
  | zero => intro n ds h; omega
  | succ fuel ih =>
      intro n ds h
      by_cases h0 : n / 10 = 0
      · simp only [Nat.toDigitsCore, h0, if_true]
        rw [List.foldl_cons]
        congr 1
        unfold decimalStep
        rw [digitChar_val _ (by omega)]
        omega
      · simp only [Nat.toDigitsCore, h0, if_false]
        rw [ih (n / 10) (Nat.digitChar (n % 10) :: ds) (by omega)]
        rw [List.foldl_cons]
        congr 1
        unfold decimalStep
        rw [digitChar_val _ (by omega)]
        omega

theorem foldl_toDigits (n : Nat) :
    (Nat.toDigits 10 n).foldl decimalStep 0 = n := by
  unfold Nat.toDigits
  rw [toDigitsCore_foldl (n + 1) n [] (Nat.lt_succ_self n)]
  rfl

theorem Nat_repr_injective (m n : Nat) (h : Nat.repr m = Nat.repr n) :
    m = n := by
  have h2 : Nat.toDigits 10 m = Nat.toDigits 10 n :=
    congrArg String.data h
  rw [← foldl_toDigits m, ← foldl_toDigits n, h2]

theorem toDigitsCore_length_ge : ∀ (fuel n : Nat) (ds : List Char),
    1 ≤ fuel →
    ds.length + 1 ≤ (Nat.toDigitsCore 10 fuel n ds).length := by
  intro fuel
  induction fuel with
  | zero => intro n ds h; omega
  | succ fuel ih =>
      intro n ds h
      by_cases h0 : n / 10 = 0
      · simp [Nat.toDigitsCore, h0]
      · simp only [Nat.toDigitsCore, h0, if_false]
        cases fuel with
        | zero => simp [Nat.toDigitsCore]
        | succ f =>
            have := ih (n / 10) (Nat.digitChar (n % 10) :: ds)
              (by omega)
            simp only [List.length_cons] at this
            omega

theorem repr_data_length_pos (n : Nat) :
    1 ≤ (Nat.repr n).data.length := by
  have : (Nat.repr n).data = Nat.toDigits 10 n := rfl
  rw [this]
  unfold Nat.toDigits
  simpa using toDigitsCore_length_ge (n + 1) n [] (by omega)

theorem candSlug_injective (base : String) (j k : Nat)
    (h : candSlug base j = candSlug base k) : j = k := by
  unfold candSlug at h
  have h2 := congrArg String.data h
  simp only [String.data_append] at h2
  rw [List.append_assoc, List.append_assoc] at h2
  have h3 := List.append_cancel_left h2
  have h4 := List.append_cancel_left h3
  exact Nat_repr_injective j k (String.ext h4)

theorem base_ne_candSlug (base : String) (k : Nat) :
    base ≠ candSlug base k := by
  intro h
  have h2 := congrArg (fun s => s.data.length) h
  simp only [candSlug, String.data_append, List.length_append] at h2
  have := repr_data_length_pos k
  have hdash : ("-" : String).data.length = 1 := rfl
  omega

/-! ### Correctness of the collision loop -/

/-- The complete slugs that count as taken for `selfId`. -/
def takenSlugs (db : List PageRec) (selfId : Nat) : List String :=
  (db.filter (fun q => q.id != selfId)).map (fun q => q.complete_slug)

theorem slugTaken_iff_mem (db : List PageRec) (selfId : Nat)
    (cs : String) :
    slugTaken db selfId cs = true ↔ cs ∈ takenSlugs db selfId := by
  unfold slugTaken from_complete_slug takenSlugs
  rw [List.any_eq_true]
  constructor
  · rintro ⟨q, hq, hid⟩
    have hmem := List.mem_of_mem_filter hq
    have hcs : q.complete_slug = cs := by
      have := List.of_mem_filter hq
      simpa using this
    subst hcs
    exact List.mem_map.mpr ⟨q, List.mem_filter.mpr ⟨hmem, hid⟩, rfl⟩
  · intro hmem
    obtain ⟨q, hq, rfl⟩ := List.mem_map.mp hmem
    obtain ⟨hqdb, hid⟩ := List.mem_filter.mp hq
    exact ⟨q, List.mem_filter.mpr ⟨hqdb, by simp⟩, hid⟩

theorem takenSlugs_length_le (db : List PageRec) (selfId : Nat) :
    (takenSlugs db selfId).length ≤ db.length := by
  unfold takenSlugs
  rw [List.length_map]
  exact List.length_filter_le _ _

/-- If some candidate within the fuel is free, the loop result is
free. -/
theorem resolveLoop_free (db : List PageRec) (selfId : Nat)
    (base : String) : ∀ (fuel next : Nat) (cur : String),
    1 ≤ fuel →
    (slugTaken db selfId cur = false ∨
      ∃ i, i + 2 ≤ fuel ∧
        slugTaken db selfId (candSlug base (next + i)) = false) →
    slugTaken db selfId
      (resolveLoop db selfId base fuel cur next) = false := by
  intro fuel
  induction fuel with
  | zero => intro next cur h; omega
  | succ fuel ih =>
      intro next cur hfuel hex
      unfold resolveLoop
      by_cases hcur : slugTaken db selfId cur = true
      · rw [if_pos hcur]
        rcases hex with h | ⟨i, hi, hfree⟩
        · rw [hcur] at h; cases h
        · apply ih (next + 1) (candSlug base next) (by omega)
          cases i with
          | zero =>
              simp only [Nat.add_zero] at hfree
              exact Or.inl hfree
          | succ i2 =>
              refine Or.inr ⟨i2, by omega, ?_⟩
              have : next + 1 + i2 = next + (i2 + 1) := by omega
              rw [this]
              exact hfree
      · rw [if_neg hcur]
        simpa using hcur

/-- If the loop result is free, it is either the base slug (itself
free) or the first free suffixed candidate, every earlier candidate
being taken. -/
theorem resolveLoop_minimal (db : List PageRec) (selfId : Nat)
    (base : String) : ∀ (fuel next : Nat) (cur : String),
    slugTaken db selfId
      (resolveLoop db selfId base fuel cur next) = false →
    (resolveLoop db selfId base fuel cur next = cur ∧
      slugTaken db selfId cur = false) ∨
    (slugTaken db selfId cur = true ∧
      ∃ k, next ≤ k ∧
        resolveLoop db selfId base fuel cur next = candSlug base k ∧
        slugTaken db selfId (candSlug base k) = false ∧
        ∀ j, next ≤ j → j < k →
          slugTaken db selfId (candSlug base j) = true) := by
  intro fuel
  induction fuel with
  | zero =>
      intro next cur hres
      unfold resolveLoop at hres ⊢
      exact Or.inl ⟨rfl, hres⟩
  | succ fuel ih =>
      intro next cur hres
      unfold resolveLoop at hres ⊢
      by_cases hcur : slugTaken db selfId cur = true
      · rw [if_pos hcur] at hres ⊢
        rcases ih (next + 1) (candSlug base next) hres with
          ⟨heq, hfree⟩ | ⟨htaken, k, hk, heq, hfree, hprev⟩
        · refine Or.inr ⟨hcur, next, Nat.le_refl _, heq, ?_, ?_⟩
          · rw [← heq]
            exact hres
          · intro j h1 h2; omega
        · refine Or.inr ⟨hcur, k, by omega, heq, hfree, ?_⟩
          intro j h1 h2
          rcases Nat.eq_or_lt_of_le h1 with rfl | hlt
          · exact htaken
          · exact hprev j (by omega) h2
      · rw [if_neg hcur] at hres ⊢
        exact Or.inl ⟨rfl, by simpa using hcur⟩

/-- The save loop always terminates with a complete slug that is not
taken by any other page: among `base`, `base-1`, ..., `base-n`
(`n = db.length`) there are `n + 1` pairwise distinct strings while at
most `n` slugs are taken. -/
theorem savedCompleteSlug_not_taken (db : List PageRec) (selfId : Nat)
    (base : String) :
    slugTaken db selfId (savedCompleteSlug db selfId base) = false := by
  unfold savedCompleteSlug
  apply resolveLoop_free db selfId base (db.length + 1) 1 base
    (by omega)
  by_cases hbase : slugTaken db selfId base = false
  · exact Or.inl hbase
  · right
    by_contra hall
    push_neg at hall
    -- every candidate with 1 <= k <= db.length - 1 + 1 is taken
    have htakenall : ∀ i, i + 2 ≤ db.length + 1 →
        slugTaken db selfId (candSlug base (1 + i)) = true := by
      intro i hi
      have := hall i hi
      simpa using this
    -- the list of base and all candidates is contained in takenSlugs
    set cands : List String :=
      base :: (List.range (db.length)).map
        (fun i => candSlug base (1 + i)) with hcands
    have hsub : cands ⊆ takenSlugs db selfId := by
      intro s hs
      rw [hcands] at hs
      rcases List.mem_cons.mp hs with rfl | hs
      · rw [← slugTaken_iff_mem]
        simpa using hbase
      · obtain ⟨i, hi, rfl⟩ := List.mem_map.mp hs
        rw [← slugTaken_iff_mem]
        exact htakenall i (by
          have := List.mem_range.mp hi
          omega)
    have hnodup : cands.Nodup := by
      rw [hcands, List.nodup_cons]
      constructor
      · intro hmem
        obtain ⟨i, hi, heq⟩ := List.mem_map.mp hmem
        exact base_ne_candSlug base (1 + i) heq.symm
      · refine List.Nodup.map ?_ (List.nodup_range _)
        intro a b hab
        have := candSlug_injective base (1 + a) (1 + b) hab
        omega
    have hlen : cands.length = db.length + 1 := by
      rw [hcands]
      simp
    have hle := (hnodup.subperm hsub).length_le
    have := takenSlugs_length_le db selfId
    omega

/-- C2 (amended): the low-level save appends numeric suffixes "-1",
"-2", "-3", ... — starting at 1, not 2 — incrementing until the
complete slug is unique, and always terminates with a result that is
taken by no other page; when the base slug is free it is kept
unchanged, otherwise the first free candidate is chosen. -/
theorem savedCompleteSlug_spec (db : List PageRec) (selfId : Nat)
    (base : String) :
    slugTaken db selfId (savedCompleteSlug db selfId base) = false ∧
    (slugTaken db selfId base = false →
      savedCompleteSlug db selfId base = base) ∧
    (slugTaken db selfId base = true →
      ∃ k, 1 ≤ k ∧
        savedCompleteSlug db selfId base = candSlug base k ∧
        slugTaken db selfId (candSlug base k) = false ∧
        ∀ j, 1 ≤ j → j < k →
          slugTaken db selfId (candSlug base j) = true) := by
  have hfree := savedCompleteSlug_not_taken db selfId base
  refine ⟨hfree, ?_, ?_⟩
  · intro hbase
    unfold savedCompleteSlug resolveLoop
    rw [if_neg (by simp [hbase])]
  · intro hbase
    unfold savedCompleteSlug at hfree ⊢
    rcases resolveLoop_minimal db selfId base (db.length + 1) 1 base
      hfree with ⟨heq, hf⟩ | ⟨_, k, hk, heq, hf, hprev⟩
    · rw [hbase] at hf; cases hf
    · exact ⟨k, hk, heq, hf, hprev⟩

/-- The pre-existing root page with slug "about" used in the C2
scenario. -/
def aboutPage : PageRec :=
  { id := 1, parentId := none, slug := "about",
    complete_slug := "about", status := 1, publication_date := none,
    publication_end_date := none, freeze_date := none,
    last_modification_date := 0 }

/-- Counterexample for C2 as stated: with root complete slug "about"
already taken, the save loop of a second root page with slug "about"
produces "about-1", not the claimed "about-2". -/
theorem savedCompleteSlug_counterexample :
    savedCompleteSlug [aboutPage] 2 "about" = "about-1" ∧
    savedCompleteSlug [aboutPage] 2 "about" ≠ "about-2" := by
  constructor <;> decide

/-- Witness for the amended C2 at the "about" scenario: the base slug
is taken and the loop returns the first free suffixed candidate. -/
theorem savedCompleteSlug_spec_witness :
    slugTaken [aboutPage] 2 "about" = true ∧
    (∃ k, 1 ≤ k ∧
      savedCompleteSlug [aboutPage] 2 "about" = candSlug "about" k ∧
      slugTaken [aboutPage] 2 (candSlug "about" k) = false ∧
      ∀ j, 1 ≤ j → j < k →
        slugTaken [aboutPage] 2 (candSlug "about" j) = true) :=
  ⟨by decide, (savedCompleteSlug_spec [aboutPage] 2 "about").2.2
    (by decide)⟩

/-! ### Lookup and shape lemmas for the page tree -/

theorem getPage_some_id (db : List PageRec) (i : Nat) (p : PageRec)
    (h : getPage db i = some p) : p.id = i := by
  have := List.find?_some h
  simpa using this

theorem getPage_some_mem (db : List PageRec) (i : Nat) (p : PageRec)
    (h : getPage db i = some p) : p ∈ db :=
  List.mem_of_find?_eq_some h

theorem find?_congr_mem {α : Type} (p q : α → Bool) (l : List α)
    (h : ∀ a ∈ l, p a = q a) : l.find? p = l.find? q := by
  induction l with
  | nil => rfl
  | cons x rest ih =>
      have hx := h x (List.mem_cons_self x rest)
      by_cases hb : q x = true
      · rw [List.find?_cons_of_pos _ hb,
          List.find?_cons_of_pos _ (by rw [hx]; exact hb)]
      · rw [List.find?_cons_of_neg _ hb,
          List.find?_cons_of_neg _ (by rw [hx]; exact hb)]
        exact ih (fun a ha => h a (List.mem_cons_of_mem x ha))

theorem getPage_of_mem_nodup (db : List PageRec) (q : PageRec)
    (hnodup : (db.map (fun p => p.id)).Nodup) (hq : q ∈ db) :
    getPage db q.id = some q := by
  induction db with
  | nil => cases hq
  | cons x rest ih =>
      simp only [List.map_cons, List.nodup_cons] at hnodup
      rcases List.mem_cons.mp hq with rfl | hq2
      · unfold getPage
        simp
      · have hxq : (x.id == q.id) = false := by
          rw [beq_eq_false_iff_ne]
          intro heq
          apply hnodup.1
          rw [heq]
          exact List.mem_map_of_mem (fun p => p.id) hq2
        unfold getPage
        rw [List.find?_cons_of_neg _ (by simp [hxq])]
        exact ih hnodup.2 hq2

theorem getPage_shape (db db' : List PageRec)
    (hsh : db'.map stripCS = db.map stripCS) (j : Nat) :
    (getPage db' j).map stripCS = (getPage db j).map stripCS := by
  have h1 := congrArg (List.find? (fun p => p.id == j)) hsh
  rw [List.find?_map, List.find?_map] at h1
  exact h1

theorem parentIdOf_shape (db db' : List PageRec)
    (hsh : db'.map stripCS = db.map stripCS) (i : Nat) :
    parentIdOf db' i = parentIdOf db i := by
  have h := getPage_shape db db' hsh i
  unfold parentIdOf
  rcases h1 : getPage db' i with _ | p1 <;>
    rcases h2 : getPage db i with _ | p2 <;>
    rw [h1, h2] at h <;> simp at h ⊢
  exact congrArg (fun r => r.parentId) h

theorem ancestorAt_shape (db db' : List PageRec)
    (hsh : db'.map stripCS = db.map stripCS) :
    ∀ (k i : Nat), ancestorAt db' k i = ancestorAt db k i := by
  intro k
  induction k with
  | zero => intro i; rfl
  | succ k ih =>
      intro i
      unfold ancestorAt
      rw [parentIdOf_shape db db' hsh i]
      rcases parentIdOf db i with _ | j
      · rfl
      · exact ih j

theorem ids_shape (db db' : List PageRec)
    (hsh : db'.map stripCS = db.map stripCS) :
    db'.map (fun p => p.id) = db.map (fun p => p.id) := by
  have h := congrArg (List.map (fun p : PageRec => p.id)) hsh
  rw [List.map_map, List.map_map] at h
  exact h

theorem mem_shape (db db' : List PageRec)
    (hsh : db'.map stripCS = db.map stripCS) (q : PageRec)
    (hq : q ∈ db) : ∃ q' ∈ db', stripCS q' = stripCS q := by
  have : stripCS q ∈ db'.map stripCS := by
    rw [hsh]
    exact List.mem_map_of_mem _ hq
  obtain ⟨q', hq', heq⟩ := List.mem_map.mp this
  exact ⟨q', hq', heq⟩

theorem setCS_shape (db : List PageRec) (i : Nat) (s : String) :
    (setCS db i s).map stripCS = db.map stripCS := by
  unfold setCS
  rw [List.map_map]
  apply List.map_congr_left
  intro a ha
  by_cases h : a.id == i <;> simp [h, Function.comp, stripCS]

theorem getPage_setCS (db : List PageRec) (i : Nat) (s : String)
    (j : Nat) :
    getPage (setCS db i s) j =
      (getPage db j).map (fun p =>
        if p.id == i then { p with complete_slug := s } else p) := by
  unfold getPage setCS
  rw [List.find?_map]
  congr 1
  apply find?_congr_mem
  intro a ha
  by_cases h : a.id = i <;> simp [h]

theorem getPage_setCS_ne (db : List PageRec) (i : Nat) (s : String)
    (j : Nat) (h : j ≠ i) :
    getPage (setCS db i s) j = getPage db j := by
  rw [getPage_setCS]
  rcases hg : getPage db j with _ | p
  · rfl
  · have hid := getPage_some_id db j p hg
    have : (p.id == i) = false := by
      rw [beq_eq_false_iff_ne, hid]
      exact h
    simp [this]
    intro hpi
    rw [hid] at hpi
    exact absurd hpi h

theorem getPage_setCS_self (db : List PageRec) (i : Nat) (s : String) :
    getPage (setCS db i s) i =
      (getPage db i).map
        (fun p => { p with complete_slug := s }) := by
  rw [getPage_setCS]
  rcases hg : getPage db i with _ | p
  · rfl
  · have hid := getPage_some_id db i p hg
    simp [hid]

theorem find?_replace (db : List PageRec) (p : PageRec)
    (hany : db.any (fun q => q.id == p.id) = true) :
    (db.map (fun q => if q.id == p.id then p else q)).find?
      (fun q => q.id == p.id) = some p := by
  induction db with
  | nil => cases hany
  | cons x rest ih =>
      simp only [List.map_cons]
      by_cases hx : x.id = p.id
      · rw [if_pos (by simpa using hx)]
        rw [List.find?_cons_of_pos _ (by simp)]
      · rw [if_neg (by simpa using hx)]
        rw [List.find?_cons_of_neg _ (by simp [hx])]
        apply ih
        simp only [List.any_cons] at hany
        rcases Bool.or_eq_true_iff.mp hany with h | h
        · exact absurd (by simpa using h) hx
        · exact h

theorem getPage_upsert_self (db : List PageRec) (p : PageRec) :
    getPage (upsert db p) p.id = some p := by
  unfold upsert getPage
  split
  case isTrue hany => exact find?_replace db p hany
  case isFalse hany =>
    rw [List.find?_append]
    have hnone : db.find? (fun q => q.id == p.id) = none := by
      rw [List.find?_eq_none]
      intro x hx hpx
      exact hany (List.any_eq_true.mpr ⟨x, hx, hpx⟩)
    rw [hnone]
    simp

theorem getPage_upsert_ne (db : List PageRec) (p : PageRec) (j : Nat)
    (h : j ≠ p.id) :
    getPage (upsert db p) j = getPage db j := by
  unfold upsert getPage
  split
  · rw [List.find?_map]
    simp only [Function.comp_def]
    have hcg : db.find? (fun a =>
        (if a.id == p.id then p else a).id == j) =
        db.find? (fun a => a.id == j) := by
      apply find?_congr_mem
      intro a ha
      by_cases hx : a.id = p.id
      · have h1 : (p.id == j) = false := by
          rw [beq_eq_false_iff_ne]
          omega
        have h2 : (a.id == j) = false := by
          rw [beq_eq_false_iff_ne]
          omega
        simp [hx, h1, h2]
      · simp [hx]
    rw [hcg]
    rcases hg : db.find? (fun a => a.id == j) with _ | q0
    · rw [hg]; rfl
    · rw [hg]
      have hq0 : q0.id = j := by simpa using List.find?_some hg
      have hne2 : (q0.id == p.id) = false := by
        rw [beq_eq_false_iff_ne]
        omega
      simp [hne2]
      intro heq
      rw [beq_eq_false_iff_ne] at hne2
      exact absurd heq hne2
  · rw [List.find?_append]
    rcases hg : db.find? (fun q => q.id == j) with _ | q0
    · have : (p.id == j) = false := by
        rw [beq_eq_false_iff_ne]
        omega
      simp [this]
    · rw [hg]
      rfl

/-! ### Forest (ranking) lemmas -/

theorem forest_chain (db : List PageRec) (dep : Nat → Nat)
    (hf : Forest db dep) :
    ∀ (k x j : Nat), (∃ p ∈ db, p.id = x) →
      ancestorAt db k x = some j →
      (∃ q ∈ db, q.id = j) ∧ dep x = dep j + k := by
  intro k
  induction k with
  | zero =>
      intro x j hx h
      unfold ancestorAt at h
      cases h
      exact ⟨hx, by omega⟩
  | succ k ih =>
      intro x j hx h
      unfold ancestorAt at h
      rcases hp : parentIdOf db x with _ | m
      · rw [hp] at h; cases h
      · rw [hp] at h
        have hg2 := hp
        unfold parentIdOf at hg2
        rcases hg : getPage db x with _ | p0
        · rw [hg] at hg2; cases hg2
        · rw [hg] at hg2
          have hg3 : p0.parentId = some m := hg2
          have hstep := hf.parentStep p0 (getPage_some_mem _ _ _ hg)
          rw [hg3] at hstep
          obtain ⟨hm, hdep⟩ := hstep
          obtain ⟨hj, hdep2⟩ := ih m j hm h
          refine ⟨hj, ?_⟩
          rw [getPage_some_id db x p0 hg] at hdep
          omega

theorem descAny_present (db : List PageRec) (a j : Nat)
    (h : DescAny db a j) : ∃ p ∈ db, p.id = j := by
  obtain ⟨k, hk, hchain⟩ := h
  rcases k with _ | k2
  · omega
  · unfold ancestorAt at hchain
    rcases hp : parentIdOf db j with _ | m
    · rw [hp] at hchain; cases hchain
    · have hg2 := hp
      unfold parentIdOf at hg2
      rcases hg : getPage db j with _ | p0
      · rw [hg] at hg2; cases hg2
      · exact ⟨p0, getPage_some_mem _ _ _ hg, getPage_some_id _ _ _ hg⟩

theorem forest_no_self (db : List PageRec) (dep : Nat → Nat)
    (hf : Forest db dep) (x : Nat) : ¬ DescAny db x x := by
  intro h
  have hx := descAny_present db x x h
  obtain ⟨k, hk, hchain⟩ := h
  have := (forest_chain db dep hf k x x hx hchain).2
  omega

theorem forest_chain_bound (db : List PageRec) (dep : Nat → Nat)
    (hf : Forest db dep) (k x j : Nat) (hx : ∃ p ∈ db, p.id = x)
    (h : ancestorAt db k x = some j) : k ≤ db.length := by
  have h2 := (forest_chain db dep hf k x j hx h).2
  obtain ⟨p, hp, hpid⟩ := hx
  have h3 := hf.depBound p hp
  rw [hpid] at h3
  omega

theorem desc_disjoint (db : List PageRec) (dep : Nat → Nat)
    (hf : Forest db dep) (a b j : Nat) (hdep : dep a = dep b)
    (hne : a ≠ b) (hja : j = a ∨ DescAny db a j)
    (hjb : j = b ∨ DescAny db b j) : False := by
  rcases hja with rfl | ⟨k1, hk1, hc1⟩
  · rcases hjb with rfl | ⟨k2, hk2, hc2⟩
    · exact hne rfl
    · have hpres := descAny_present db b j ⟨k2, hk2, hc2⟩
      have := (forest_chain db dep hf k2 j b hpres hc2).2
      omega
  · rcases hjb with rfl | ⟨k2, hk2, hc2⟩
    · have hpres := descAny_present db a j ⟨k1, hk1, hc1⟩
      have := (forest_chain db dep hf k1 j a hpres hc1).2
      omega
    · have hpres := descAny_present db a j ⟨k1, hk1, hc1⟩
      have hd1 := (forest_chain db dep hf k1 j a hpres hc1).2
      have hd2 := (forest_chain db dep hf k2 j b hpres hc2).2
      have hkk : k1 = k2 := by omega
      subst hkk
      rw [hc1] at hc2
      cases hc2
      exact hne rfl

theorem ancestorAt_one (db : List PageRec) (j m : Nat) :
    ancestorAt db 1 j = some m ↔ parentIdOf db j = some m := by
  unfold ancestorAt
  rcases hp : parentIdOf db j with _ | x
  · simp
  · unfold ancestorAt
    simp

theorem ancestorAt_step (db : List PageRec) (k j m : Nat)
    (hp : parentIdOf db j = some m) :
    ancestorAt db (k + 1) j = ancestorAt db k m := by
  show (match parentIdOf db j with
    | none => none
    | some x => ancestorAt db k x) = ancestorAt db k m
  rw [hp]

theorem ancestorAt_decompose (db : List PageRec) : ∀ (k j i : Nat),
    1 ≤ k → ancestorAt db k j = some i →
    ∃ c, ancestorAt db (k - 1) j = some c ∧
      parentIdOf db c = some i := by
  intro k
  induction k with
  | zero => intro j i h; omega
  | succ k ih =>
      intro j i hk h
      cases k with
      | zero =>
          exact ⟨j, rfl, (ancestorAt_one db j i).mp h⟩
      | succ k2 =>
          unfold ancestorAt at h
          rcases hp : parentIdOf db j with _ | m
          · rw [hp] at h; cases h
          · rw [hp] at h
            obtain ⟨c, hc1, hc2⟩ := ih m i (by omega) h
            refine ⟨c, ?_, hc2⟩
            simp only [Nat.succ_sub_one] at hc1 ⊢
            rw [ancestorAt_step db k2 j m hp]
            exact hc1

theorem ancestorAt_extend (db : List PageRec) : ∀ (k j a b : Nat),
    ancestorAt db k j = some a → parentIdOf db a = some b →
    ancestorAt db (k + 1) j = some b := by
  intro k
  induction k with
  | zero =>
      intro j a b h hp
      unfold ancestorAt at h
      cases h
      exact (ancestorAt_one db j b).mpr hp
  | succ k ih =>
      intro j a b h hp
      unfold ancestorAt at h
      rcases hpj : parentIdOf db j with _ | m
      · rw [hpj] at h; cases h
      · rw [hpj] at h
        rw [ancestorAt_step db (k + 1) j m hpj]
        exact ih m a b h hp

/-- Correctness of the descendant cascade: over a well-formed forest
(with ranking `dep`) and any database with the same ids, parents and
slugs as `db0`, `cascadeSub fuel db i` (1) changes only complete
slugs, (2) leaves every page outside the fuel-bounded subtree of `i`
untouched, and (3) establishes the materialized-path equation at every
page of that subtree. -/
theorem cascade_main (db0 : List PageRec) (dep : Nat → Nat)
    (hf : Forest db0 dep) :
    ∀ (fuel : Nat) (i : Nat) (db : List PageRec),
      db.map stripCS = db0.map stripCS →
      (cascadeSub fuel db i).map stripCS = db0.map stripCS ∧
      (∀ j, ¬ DescLe db0 fuel i j →
        getPage (cascadeSub fuel db i) j = getPage db j) ∧
      (∀ j, DescLe db0 fuel i j →
        EquationAt (cascadeSub fuel db i) j) := by
  intro fuel
  induction fuel with
  | zero =>
      intro i db hsh
      have h0 : cascadeSub 0 db i = db := rfl
      rw [h0]
      refine ⟨hsh, fun j _ => rfl, fun j hj => ?_⟩
      obtain ⟨k, hk1, hk2, _⟩ := hj
      omega
  | succ fuel ih =>
      intro i db hsh
      have hQ : ∀ (ii : Nat) (ks : List PageRec), ∀ (dbx : List PageRec),
          dbx.map stripCS = db0.map stripCS →
          (∀ c ∈ ks, c.parentId = some ii ∧
            (getPage db0 c.id).map stripCS = some (stripCS c)) →
          (ks.map (fun c => c.id)).Nodup →
          (cascadeKids fuel dbx ks).map stripCS = db0.map stripCS ∧
          (∀ j, (∀ c ∈ ks, j ≠ c.id ∧ ¬ DescLe db0 fuel c.id j) →
            getPage (cascadeKids fuel dbx ks) j = getPage dbx j) ∧
          (∀ j c, c ∈ ks → (j = c.id ∨ DescLe db0 fuel c.id j) →
            EquationAt (cascadeKids fuel dbx ks) j) := by
        intro ii ks
        induction ks with
        | nil =>
            intro dbx hshx hsnap hnodup
            have h0 : cascadeKids fuel dbx [] = dbx := rfl
            rw [h0]
            exact ⟨hshx, fun j _ => rfl,
              fun j c hc => absurd hc (by simp)⟩
        | cons c rest ihks =>
            intro dbx hshx hsnap hnodup
            have hcpar : c.parentId = some ii := (hsnap c (by simp)).1
            have hcsnap := (hsnap c (by simp)).2
            rcases hg0 : getPage db0 c.id with _ | p0
            · rw [hg0] at hcsnap; cases hcsnap
            have hp0id : p0.id = c.id := getPage_some_id _ _ _ hg0
            have hp0mem : p0 ∈ db0 := getPage_some_mem _ _ _ hg0
            have hp0strip : stripCS p0 = stripCS c := by
              rw [hg0] at hcsnap
              simpa using hcsnap
            have hp0par : p0.parentId = some ii := by
              have h1 := congrArg (fun r => r.parentId) hp0strip
              simp only [stripCS] at h1
              rw [h1]
              exact hcpar
            have hstep := hf.parentStep p0 hp0mem
            rw [hp0par] at hstep
            obtain ⟨hiipres, hdepc0⟩ := hstep
            rw [hp0id] at hdepc0
            -- every page in `ks` sits one level below `ii`
            have hdepAll : ∀ c2 ∈ (c :: rest),
                dep c2.id = dep ii + 1 := by
              intro c2 h2
              have hcpar2 : c2.parentId = some ii := (hsnap c2 h2).1
              have hcsnap2 := (hsnap c2 h2).2
              rcases hg02 : getPage db0 c2.id with _ | p02
              · rw [hg02] at hcsnap2; cases hcsnap2
              have hstrip2 : stripCS p02 = stripCS c2 := by
                rw [hg02] at hcsnap2
                simpa using hcsnap2
              have hpar2 : p02.parentId = some ii := by
                have h1 := congrArg (fun r => r.parentId) hstrip2
                simp only [stripCS] at h1
                rw [h1]
                exact hcpar2
              have hstep2 := hf.parentStep p02
                (getPage_some_mem _ _ _ hg02)
              rw [hpar2] at hstep2
              rw [getPage_some_id _ _ _ hg02] at hstep2
              exact hstep2.2
            -- unfold one step of the fold
            have heq : cascadeKids fuel dbx (c :: rest) =
                cascadeKids fuel
                  (cascadeSub fuel
                    (setCS dbx c.id
                      (build_complete_slug
                        (c.parentId.bind (getPage dbx)) c.slug))
                    c.id) rest := rfl
            set newCs := build_complete_slug
              (c.parentId.bind (getPage dbx)) c.slug with hnewCs
            set db2 := setCS dbx c.id newCs with hdb2
            have hsh2 : db2.map stripCS = db0.map stripCS := by
              rw [hdb2, setCS_shape]
              exact hshx
            obtain ⟨hA3, hB3, hC3⟩ := ih c.id db2 hsh2
            set db3 := cascadeSub fuel db2 c.id with hdb3
            -- no-cycle facts
            have hnoc : ¬ DescAny db0 c.id c.id :=
              forest_no_self db0 dep hf c.id
            have hiic : ii ≠ c.id := by
              intro h2
              rw [← h2] at hdepc0
              omega
            have hnoi : ¬ DescAny db0 c.id ii := by
              rintro ⟨k, hk, hchain⟩
              have hpres := descAny_present db0 c.id ii ⟨k, hk, hchain⟩
              have := (forest_chain db0 dep hf k ii c.id hpres
                hchain).2
              omega
            have hB3c : getPage db3 c.id = getPage db2 c.id := by
              apply hB3
              rintro ⟨k, hk1, hk2, hchain⟩
              exact hnoc ⟨k, hk1, hchain⟩
            have hB3i : getPage db3 ii = getPage db2 ii := by
              apply hB3
              rintro ⟨k, hk1, hk2, hchain⟩
              exact hnoi ⟨k, hk1, hchain⟩
            have hg2i : getPage db2 ii = getPage dbx ii := by
              rw [hdb2]
              exact getPage_setCS_ne dbx c.id newCs ii hiic
            -- the record of c.id in dbx
            have hgcx : (getPage dbx c.id).map stripCS =
                some (stripCS c) := by
              rw [getPage_shape db0 dbx hshx c.id, hg0]
              simp [hp0strip]
            rcases hgx : getPage dbx c.id with _ | px
            · rw [hgx] at hgcx; cases hgcx
            have hpxstrip : stripCS px = stripCS c := by
              rw [hgx] at hgcx
              simpa using hgcx
            have hpxslug : px.slug = c.slug := by
              have h1 := congrArg (fun r => r.slug) hpxstrip
              simpa [stripCS] using h1
            have hpxpar : px.parentId = some ii := by
              have h1 := congrArg (fun r => r.parentId) hpxstrip
              simp only [stripCS] at h1
              rw [h1]
              exact hcpar
            have hgc2 : getPage db2 c.id =
                some { px with complete_slug := newCs } := by
              rw [hdb2, getPage_setCS_self, hgx]
              rfl
            -- rest-level processing
            have hsnap2 : ∀ c2 ∈ rest, c2.parentId = some ii ∧
                (getPage db0 c2.id).map stripCS =
                  some (stripCS c2) :=
              fun c2 h2 => hsnap c2 (by simp [h2])
            have hnodup2 : (rest.map (fun c => c.id)).Nodup := by
              simp only [List.map_cons, List.nodup_cons] at hnodup
              exact hnodup.2
            have hcidrest : ∀ c2 ∈ rest, c.id ≠ c2.id := by
              intro c2 h2 hcontra
              simp only [List.map_cons, List.nodup_cons] at hnodup
              exact hnodup.1 (hcontra ▸ List.mem_map_of_mem _ h2)
            obtain ⟨hA4, hB4, hC4⟩ := ihks db3 hA3 hsnap2 hnodup2
            -- stability of the subtree of c (and of ii) under the rest
            have hstabDesc : ∀ t, (t = c.id ∨ DescAny db0 c.id t) →
                ∀ c2 ∈ rest, t ≠ c2.id ∧
                  ¬ DescLe db0 fuel c2.id t := by
              intro t ht c2 h2
              have hd2 := hdepAll c2 (by simp [h2])
              have hd1 := hdepAll c (by simp)
              have hne := hcidrest c2 h2
              constructor
              · rintro rfl
                exact desc_disjoint db0 dep hf c.id c2.id c2.id
                  (by omega) hne ht (Or.inl rfl)
              · rintro ⟨k, hk1, hk2, hchain⟩
                exact desc_disjoint db0 dep hf c.id c2.id t
                  (by omega) hne ht (Or.inr ⟨k, hk1, hchain⟩)
            have hstabIi : ∀ c2 ∈ rest, ii ≠ c2.id ∧
                ¬ DescLe db0 fuel c2.id ii := by
              intro c2 h2
              have hd2 := hdepAll c2 (by simp [h2])
              constructor
              · intro h3
                rw [h3] at hd2
                omega
              · rintro ⟨k, hk1, hk2, hchain⟩
                have hpres := descAny_present db0 c2.id ii
                  ⟨k, hk1, hchain⟩
                have := (forest_chain db0 dep hf k ii c2.id hpres
                  hchain).2
                omega
            -- the record of ii survives to the end
            have hiiB4 : getPage (cascadeKids fuel db3 rest) ii =
                getPage dbx ii := by
              rw [hB4 ii hstabIi, hB3i, hg2i]
            -- ii is present in dbx
            obtain ⟨qre, hqre, hqreid⟩ := hiipres
            have hgq0 : getPage db0 ii = some qre := by
              have := getPage_of_mem_nodup db0 qre hf.nodupIds hqre
              rw [hqreid] at this
              exact this
            have hiix : ∃ r, getPage dbx ii = some r := by
              have hshp := getPage_shape db0 dbx hshx ii
              rw [hgq0] at hshp
              rcases hgxi : getPage dbx ii with _ | r
              · rw [hgxi] at hshp; cases hshp
              · exact ⟨r, rfl⟩
            refine ⟨?_, ?_, ?_⟩
            · rw [heq]
              exact hA4
            · intro j hj
              rw [heq]
              rw [hB4 j (fun c2 h2 => hj c2 (by simp [h2]))]
              rw [hB3 j ?hdescj]
              case hdescj =>
                rintro ⟨k, hk1, hk2, hchain⟩
                exact (hj c (by simp)).2 ⟨k, hk1, hk2, hchain⟩
              rw [hdb2]
              exact getPage_setCS_ne dbx c.id newCs j
                (hj c (by simp)).1
            · intro j c' hc' hdesc
              rcases List.mem_cons.mp hc' with rfl | hc'2
              · -- the head child's subtree
                rcases hdesc with rfl | hdescj
                · -- the equation at c' itself
                  rw [heq]
                  intro q hq
                  have hstable : getPage (cascadeKids fuel db3 rest)
                      c'.id = getPage db3 c'.id :=
                    hB4 c'.id (hstabDesc c'.id (Or.inl rfl))
                  rw [hstable, hB3c, hgc2] at hq
                  cases hq
                  obtain ⟨r, hr⟩ := hiix
                  refine ⟨ii, r, hpxpar, ?_, ?_⟩
                  · rw [hiiB4]
                    exact hr
                  · show newCs = r.complete_slug ++ "/" ++ px.slug
                    rw [hnewCs, hcpar]
                    show build_complete_slug (getPage dbx ii) c'.slug
                      = r.complete_slug ++ "/" ++ px.slug
                    rw [hr, hpxslug]
                    rfl
                · -- a deeper descendant of c'
                  rw [heq]
                  intro q hq
                  have hdescAny : DescAny db0 c'.id j := by
                    obtain ⟨k, hk1, hk2, hchain⟩ := hdescj
                    exact ⟨k, hk1, hchain⟩
                  have hjstable : getPage (cascadeKids fuel db3 rest)
                      j = getPage db3 j :=
                    hB4 j (hstabDesc j (Or.inr hdescAny))
                  rw [hjstable] at hq
                  obtain ⟨pi, r, hqpar, hgr, heqn⟩ :=
                    hC3 j hdescj q hq
                  refine ⟨pi, r, hqpar, ?_, heqn⟩
                  -- the parent pi is c' or a descendant of c'
                  have hpipar : parentIdOf db0 j = some pi := by
                    have hsp := parentIdOf_shape db0 db3 hA3 j
                    rw [← hsp]
                    unfold parentIdOf
                    rw [hq]
                    simpa using hqpar
                  obtain ⟨k, hk1, hk2, hchain⟩ := hdescj
                  have hpij : pi = c'.id ∨ DescAny db0 c'.id pi := by
                    rcases Nat.lt_or_ge 1 k with hk | hk
                    · right
                      have hkk : k = (k - 1) + 1 := by omega
                      rw [hkk,
                        ancestorAt_step db0 (k - 1) j pi hpipar]
                        at hchain
                      exact ⟨k - 1, by omega, hchain⟩
                    · have hkk : k = 1 := by omega
                      rw [hkk] at hchain
                      have h2 := (ancestorAt_one db0 j c'.id).mp
                        hchain
                      rw [hpipar] at h2
                      exact Or.inl (Option.some.inj h2)
                  have hpistable : getPage (cascadeKids fuel db3 rest)
                      pi = getPage db3 pi :=
                    hB4 pi (hstabDesc pi hpij)
                  rw [hpistable]
                  exact hgr
              · rw [heq]
                exact hC4 j c' hc'2 hdesc
      -- assemble the statement for fuel + 1 from hQ on the children
      have hnodupdb : (db.map (fun p => p.id)).Nodup := by
        rw [ids_shape db0 db hsh]
        exact hf.nodupIds
      have hkids_snap : ∀ c ∈ childrenOf db i, c.parentId = some i ∧
          (getPage db0 c.id).map stripCS = some (stripCS c) := by
        intro c hc
        have hcdb : c ∈ db := List.mem_of_mem_filter hc
        have hcpar : c.parentId = some i := by
          have := List.of_mem_filter hc
          simpa using this
        refine ⟨hcpar, ?_⟩
        have hg : getPage db c.id = some c :=
          getPage_of_mem_nodup db c hnodupdb hcdb
        have h2 := getPage_shape db0 db hsh c.id
        rw [hg] at h2
        exact h2.symm
      have hkids_nodup :
          ((childrenOf db i).map (fun c => c.id)).Nodup := by
        have hsub : List.Sublist (childrenOf db i) db :=
          List.filter_sublist db
        exact List.Nodup.sublist (hsub.map (fun c => c.id)) hnodupdb
      obtain ⟨hA, hB, hC⟩ := hQ i (childrenOf db i) db hsh
        hkids_snap hkids_nodup
      have hunfold : cascadeSub (fuel + 1) db i =
          cascadeKids fuel db (childrenOf db i) := rfl
      refine ⟨?_, ?_, ?_⟩
      · rw [hunfold]
        exact hA
      · intro j hj
        rw [hunfold]
        apply hB
        intro c hc
        have hcpar := (hkids_snap c hc).1
        have hpar0 : parentIdOf db0 c.id = some i := by
          have h2 := (hkids_snap c hc).2
          rcases hg0 : getPage db0 c.id with _ | p0
          · rw [hg0] at h2; cases h2
          · unfold parentIdOf
            rw [hg0]
            have hstrip : stripCS p0 = stripCS c := by
              rw [hg0] at h2
              simpa using h2
            have hp : p0.parentId = c.parentId := by
              have h3 := congrArg (fun r => r.parentId) hstrip
              simpa [stripCS] using h3
            simp [hp, hcpar]
        constructor
        · rintro rfl
          exact hj ⟨1, by omega, by omega,
            (ancestorAt_one db0 c.id i).mpr hpar0⟩
        · rintro ⟨k, hk1, hk2, hchain⟩
          exact hj ⟨k + 1, by omega, by omega,
            ancestorAt_extend db0 k j c.id i hchain hpar0⟩
      · intro j hdesc
        rw [hunfold]
        obtain ⟨k, hk1, hk2, hchain⟩ := hdesc
        obtain ⟨cid, hc1, hc2⟩ :=
          ancestorAt_decompose db0 k j i hk1 hchain
        have hpc : ∃ pc, getPage db0 cid = some pc ∧
            pc.parentId = some i := by
          unfold parentIdOf at hc2
          rcases hg : getPage db0 cid with _ | pc
          · rw [hg] at hc2; cases hc2
          · rw [hg] at hc2
            exact ⟨pc, rfl, hc2⟩
        obtain ⟨pc, hgpc, hpcpar⟩ := hpc
        obtain ⟨c', hc'db, hc'strip⟩ :=
          mem_shape db0 db hsh pc (getPage_some_mem _ _ _ hgpc)
        have hc'id : c'.id = cid := by
          have h3 := congrArg (fun r => r.id) hc'strip
          simp only [stripCS] at h3
          rw [h3]
          exact getPage_some_id _ _ _ hgpc
        have hc'par : c'.parentId = some i := by
          have h3 := congrArg (fun r => r.parentId) hc'strip
          simp only [stripCS] at h3
          rw [h3]
          exact hpcpar
        have hcmem : c' ∈ childrenOf db i :=
          List.mem_filter.mpr ⟨hc'db, by simp [hc'par]⟩
        apply hC j c' hcmem
        by_cases hk1' : k = 1
        · left
          rw [hk1'] at hc1
          simp only [Nat.sub_self] at hc1
          unfold ancestorAt at hc1
          cases hc1
          exact hc'id.symm
        · right
          refine ⟨k - 1, by omega, by omega, ?_⟩
          rw [hc'id]
          exact hc1

/-- C3: for every page and every now, `calculated_status` returns Draft
when start-date enforcement is enabled and a set publication date is in
the future, regardless of stored status; otherwise Expired when
end-date enforcement is enabled and a set publication end date is past;
otherwise the stored status — and `visible` holds iff the derived
status is Published or Hidden. -/
theorem calculated_status_matches_spec_and_visible
    (st : PageSettings) (now : Nat) (p : PageRec) :
    calculated_status st now p = effectiveStatusSpec st now p ∧
    (visible st now p = true ↔
      (calculated_status st now p = PUBLISHED ∨
       calculated_status st now p = HIDDEN)) := by
  constructor
  · unfold calculated_status calculated_status.calculatedStatusEndPart
      effectiveStatusSpec
    rcases hd : p.publication_date with _ | d <;>
      rcases he : p.publication_end_date with _ | e <;>
      rcases st.PAGE_SHOW_START_DATE with _ | _ <;>
      rcases st.PAGE_SHOW_END_DATE with _ | _ <;>
      simp [hd, he] <;> omega
  · unfold visible
    simp [beq_iff_eq]

/-- C8: `Page.save` sets `publication_date` to now for a Published page
with unset date, clears it for a Draft unless it is strictly future
under start-date enforcement (a future-dated draft keeps its date only
when enforcement is active; a past-dated draft is cleared). -/
theorem savePubFixups_pubdate_matches_spec
    (st : PageSettings) (now : Nat) (p : PageRec) :
    (savePubFixups st now p).publication_date = pubDateAfterSaveSpec st now p ∧
    (savePubFixups st now p).status = p.status := by
  obtain ⟨i, par, sl, cs, stat, pd, ped, fd, lm⟩ := p
  unfold savePubFixups pubDateAfterSaveSpec PUBLISHED DRAFT
  rcases pd with _ | d <;>
    cases hs : st.PAGE_SHOW_START_DATE <;>
    by_cases h0 : stat = 0 <;>
    by_cases h1 : stat = 1 <;>
    simp_all <;>
    split_ifs <;>
    simp_all <;>
    omega

/-! ### C1: the materialized-path invariant maintained by `Page.save` -/

theorem savePubFixups_preserves (st : PageSettings) (now : Nat)
    (p : PageRec) :
    (savePubFixups st now p).id = p.id ∧
    (savePubFixups st now p).parentId = p.parentId ∧
    (savePubFixups st now p).slug = p.slug ∧
    (savePubFixups st now p).complete_slug = p.complete_slug := by
  obtain ⟨i, par, sl, cs, stat, pd, ped, fd, lm⟩ := p
  unfold savePubFixups
  rcases pd with _ | d <;>
    cases hs : st.PAGE_SHOW_START_DATE <;>
    by_cases h0 : stat = 0 <;>
    by_cases h1 : stat = 1 <;>
    simp_all <;>
    split_ifs <;>
    simp_all <;>
    split_ifs <;>
    simp_all

theorem savedPage_fields (st : PageSettings) (now : Nat)
    (db : List PageRec) (page : PageRec) :
    (savedPage st now db page).id = page.id ∧
    (savedPage st now db page).parentId = page.parentId ∧
    (savedPage st now db page).slug = page.slug ∧
    (savedPage st now db page).complete_slug =
      savedCompleteSlug db page.id
        (build_complete_slug (page.parentId.bind (getPage db))
          page.slug) := by
  obtain ⟨hid, hpar, hsl, _⟩ := savePubFixups_preserves st now page
  refine ⟨hid, hpar, hsl, ?_⟩
  show savedCompleteSlug db (savePubFixups st now page).id
      (build_complete_slug
        ((savePubFixups st now page).parentId.bind (getPage db))
        (savePubFixups st now page).slug) =
    savedCompleteSlug db page.id
      (build_complete_slug (page.parentId.bind (getPage db))
        page.slug)
  rw [hid, hpar, hsl]

theorem pageSave_eq_cascade (st : PageSettings) (now : Nat)
    (db : List PageRec) (page : PageRec)
    (hch : ((savedPage st now db page).complete_slug ==
      page.complete_slug) = false) :
    pageSave st now db page =
      cascadeSub (upsert db (savedPage st now db page)).length
        (upsert db (savedPage st now db page))
        (savedPage st now db page).id := by
  unfold pageSave
  simp [hch]

/-- C1 (amended): `Page.save` maintains the materialized-path
invariant up to collision suffixing.  When the saved page's complete
slug changed, `pageSave` (1) writes the saved page's row with
`complete_slug` equal to the collision-resolved value of
`build_complete_slug(parent, slug)` — equal to
`parent.complete_slug + "/" + slug` (root pages: `slug`) exactly when
that value collides with no other page, (2) re-establishes the
equation `complete_slug = parent.complete_slug + "/" + slug` at every
descendant via the top-down cascade, and (3) leaves every other page
untouched.  As literally stated the claim is false for the saved page
itself when its base complete slug collides (`pageSave_cx`). -/
theorem pageSave_materialized_path (st : PageSettings) (now : Nat)
    (db : List PageRec) (page : PageRec) (dep : Nat → Nat)
    (hch : ((savedPage st now db page).complete_slug ==
      page.complete_slug) = false)
    (hf : Forest (upsert db (savedPage st now db page)) dep) :
    (getPage (pageSave st now db page) page.id =
        some (savedPage st now db page) ∧
      (savedPage st now db page).complete_slug =
        savedCompleteSlug db page.id
          (build_complete_slug (page.parentId.bind (getPage db))
            page.slug) ∧
      (slugTaken db page.id
          (build_complete_slug (page.parentId.bind (getPage db))
            page.slug) = false →
        (savedPage st now db page).complete_slug =
          build_complete_slug (page.parentId.bind (getPage db))
            page.slug)) ∧
    (∀ j, DescAny (upsert db (savedPage st now db page)) page.id j →
      EquationAt (pageSave st now db page) j) ∧
    (∀ j, ¬ DescAny (upsert db (savedPage st now db page)) page.id j →
      j ≠ page.id →
      getPage (pageSave st now db page) j =
        getPage (upsert db (savedPage st now db page)) j) := by
  obtain ⟨hid, hpar, hsl, hcs⟩ := savedPage_fields st now db page
  have hps := pageSave_eq_cascade st now db page hch
  set p2 := savedPage st now db page with hp2
  set db1 := upsert db p2 with hdb1
  obtain ⟨hA, hB, hC⟩ := cascade_main db1 dep hf db1.length p2.id db1 rfl
  refine ⟨⟨?_, hcs, ?_⟩, ?_, ?_⟩
  · rw [hps, ← hid]
    have hnd : ¬ DescLe db1 db1.length p2.id p2.id := by
      rintro ⟨k, hk1, hk2, hc⟩
      exact forest_no_self db1 dep hf p2.id ⟨k, hk1, hc⟩
    rw [hB p2.id hnd]
    exact getPage_upsert_self db p2
  · intro hfree
    rw [hcs]
    unfold savedCompleteSlug resolveLoop
    rw [if_neg (by simp [hfree])]
  · intro j hd
    rw [hps]
    obtain ⟨k, hk1, hchain⟩ := hd
    have hkb : k ≤ db1.length :=
      forest_chain_bound db1 dep hf k j page.id
        (descAny_present db1 page.id j ⟨k, hk1, hchain⟩) hchain
    apply hC j
    refine ⟨k, hk1, hkb, ?_⟩
    rw [hid]
    exact hchain
  · intro j hnd hne
    rw [hps]
    apply hB j
    rintro ⟨k, hk1, hk2, hc⟩
    rw [hid] at hc
    exact hnd ⟨k, hk1, hc⟩

/-- The settings used in the concrete C1 scenarios. -/
def c1st : PageSettings := ⟨false, false, 0⟩

/-- An existing root page with slug "about" (C1 counterexample). -/
def c1oldRoot : PageRec :=
  ⟨1, none, "about", "about", 1, some 0, none, none, 0⟩

/-- A new root page being saved with the same slug "about". -/
def c1newRoot : PageRec :=
  ⟨2, none, "about", "", 1, some 0, none, none, 0⟩

/-- Counterexample for C1 as literally stated: saving a second root
page with slug "about" while complete slug "about" is taken yields a
row whose `complete_slug` is "about-1", not its own slug "about" — the
root-page equation `complete_slug = slug` fails for the saved page. -/
theorem pageSave_cx :
    (getPage (pageSave c1st 5 [c1oldRoot] c1newRoot) 2).map
        (fun q => (q.parentId, q.complete_slug, q.slug)) =
      some (none, "about-1", "about") ∧
    ("about-1" : String) ≠ "about" := by
  constructor <;> decide

/-- The root page of the concrete C1 cascade scenario. -/
def c1root : PageRec :=
  ⟨1, none, "home", "home", 1, some 0, none, none, 0⟩

/-- The page being saved: previously a root page with complete slug
"about", now re-parented under `c1root`. -/
def c1page : PageRec :=
  ⟨2, some 1, "about", "about", 1, some 0, none, none, 0⟩

/-- The database row currently stored for `c1page` (the pre-move
version). -/
def c1old2 : PageRec :=
  ⟨2, none, "about", "about", 1, some 0, none, none, 0⟩

/-- A child of the moved page, whose complete slug must be updated by
the cascade. -/
def c1kid : PageRec :=
  ⟨3, some 2, "x", "about/x", 1, some 0, none, none, 0⟩

/-- The page table of the concrete C1 cascade scenario. -/
def c1db : List PageRec := [c1root, c1old2, c1kid]

/-- The row `pageSave` writes for `c1page` in that scenario. -/
def c1saved : PageRec :=
  ⟨2, some 1, "about", "home/about", 1, some 0, none, none, 5⟩

/-- A depth ranking for the C1 scenario's forest. -/
def c1dep : Nat → Nat :=
  fun i => if i = 1 then 0 else if i = 2 then 1 else 2

theorem pageSave_materialized_path_witness :
    ((savedPage c1st 5 c1db c1page).complete_slug ==
      c1page.complete_slug) = false ∧
    EquationAt (pageSave c1st 5 c1db c1page) 3 ∧
    (getPage (pageSave c1st 5 c1db c1page) 3).map
        (fun q => q.complete_slug) = some "home/about/x" := by
  have hf : Forest (upsert c1db (savedPage c1st 5 c1db c1page))
      c1dep := by
    refine ⟨by decide, ?_, by decide⟩
    have hdb : upsert c1db (savedPage c1st 5 c1db c1page) =
        [c1root, c1saved, c1kid] := by decide
    rw [hdb]
    intro p hp
    fin_cases hp <;> first | trivial | decide
  refine ⟨by decide, ?_, by decide⟩
  exact (pageSave_materialized_path c1st 5 c1db c1page c1dep
    (by decide) hf).2.1 3 ⟨1, by decide, by decide⟩

/-! ### C9: cycle prevention for move targets -/

/-- C9: over a well-formed forest, `valid_targets` never contains the
page itself nor any of its descendants, and `move_to` rejects with
`InvalidMove` any target that is the page itself or one of its
descendants. -/
theorem valid_targets_cycle_prevention (st : PageSettings) (now : Nat)
    (db : List PageRec) (dep : Nat → Nat) (hf : Forest db dep)
    (p : PageRec) :
    (∀ q ∈ valid_targets db p,
      q.id ≠ p.id ∧ ¬ DescAny db p.id q.id) ∧
    (∀ t, t = p.id ∨ DescAny db p.id t →
      move_to st now db p t = .error "InvalidMove") := by
  have hbounded : ∀ j, (∃ q ∈ db, q.id = j) → DescAny db p.id j →
      (List.range db.length).any
        (fun k => ancestorAt db (k + 1) j == some p.id) = true := by
    intro j hpres hd
    obtain ⟨m, hm1, hchain⟩ := hd
    have hmb : m ≤ db.length :=
      forest_chain_bound db dep hf m j p.id hpres hchain
    obtain ⟨q, hq, _⟩ := hpres
    have hpos : 0 < db.length := List.length_pos_of_mem hq
    refine List.any_eq_true.mpr
      ⟨m - 1, List.mem_range.mpr (by omega), ?_⟩
    have hm : m - 1 + 1 = m := by omega
    rw [hm, hchain]
    simp
  constructor
  · intro q hq
    unfold valid_targets at hq
    obtain ⟨hqdb, hqfil⟩ := List.mem_filter.mp hq
    have hc : ((p.id :: (descendantRecs db p.id).map
        (fun r => r.id)).contains q.id) = false := by
      simpa using hqfil
    rw [List.contains_cons] at hc
    obtain ⟨hc1, hc2⟩ := by
      simpa [Bool.or_eq_false_iff] using hc
    constructor
    · simpa using hc1
    · intro hd
      have hmem : q ∈ descendantRecs db p.id := by
        unfold descendantRecs
        exact List.mem_filter.mpr
          ⟨hqdb, hbounded q.id ⟨q, hqdb, rfl⟩ hd⟩
      exact hc2 q hmem rfl
  · intro t ht
    unfold move_to
    rcases ht with rfl | hd
    · rw [if_pos (by simp)]
    · have hpres := descAny_present db p.id t hd
      rw [if_pos ?_]
      rw [hbounded t hpres hd]
      simp

/-- The root page of the concrete C9 scenario. -/
def c9root : PageRec := ⟨1, none, "r", "r", 1, some 0, none, none, 0⟩

/-- A child of `c9root`: an illegal move target for it. -/
def c9kid : PageRec :=
  ⟨2, some 1, "k", "r/k", 1, some 0, none, none, 0⟩

/-- An unrelated root page: a legal move target. -/
def c9other : PageRec :=
  ⟨3, none, "o", "o", 1, some 0, none, none, 0⟩

/-- The page table of the concrete C9 scenario. -/
def c9db : List PageRec := [c9root, c9kid, c9other]

/-- A depth ranking for the C9 scenario's forest. -/
def c9dep : Nat → Nat := fun i => if i = 2 then 1 else 0

theorem valid_targets_cycle_prevention_witness :
    c9other ∈ valid_targets c9db c9root ∧
    (c9other.id ≠ c9root.id ∧ ¬ DescAny c9db c9root.id c9other.id) ∧
    move_to c1st 5 c9db c9root c9kid.id = .error "InvalidMove" := by
  have hf : Forest c9db c9dep := by
    refine ⟨by decide, ?_, by decide⟩
    intro p hp
    fin_cases hp <;> first | trivial | decide
  refine ⟨by decide, ?_, ?_⟩
  · exact (valid_targets_cycle_prevention c1st 5 c9db c9dep hf
      c9root).1 c9other (by decide)
  · exact (valid_targets_cycle_prevention c1st 5 c9db c9dep hf
      c9root).2 c9kid.id (Or.inr ⟨1, by decide, by decide⟩)

end Pages
